import Mathlib

/-! Root finding: bisection, Newton-Raphson and secant.

A shallow embedding of `src/root_finding/root_finding.cxx` and of the target
function of `src/function_input.cxx`, in two readings of the type `double`.

The exact reading (`bisection`, `newton_raphson`, `secant`):

* A C++ `double` is an element of a linearly ordered field `α` (exact
  arithmetic): the definitions are generic, run on `ℚ` and are reasoned about
  on `ℝ`.
* A call ends in one of three ways (`Outcome`): it returns a number, it throws
  `std::runtime_error` (only `bisection` has a `throw`), or a division with a
  zero divisor takes it out of exact arithmetic (`nonFinite`), where this
  reading stops following the run.
* The properties stated for exact arithmetic are proved on this reading.

The reading on doubles (`Machine.bisection`, `Machine.newton_raphson`,
`Machine.secant`):

* A C++ `double` is an element of a type `D` with an arithmetic `Arith D`; the
  source is read operation by operation, with no branch of its own.  The
  properties that do not depend on what the operations compute are proved for
  every arithmetic, the others for every arithmetic with the IEEE facts
  `Arith.IEEE`.
* `B64` is IEEE 754 binary64 (round to nearest, ties to even, each operation
  rounded on its own); it has the IEEE facts, and the runs on doubles are
  evaluated on it.
* On exact arithmetic the reading on doubles is the exact reading, as long as
  the latter meets no zero divisor.

In both readings:

* A C++ `int` is an `Int`.  The loop `for (int i = 0; i < max_iter; i++)`
  neither reads nor writes `i` in its body, so it is a recursion on the number
  `max_iter.toNat` of iterations still allowed.  `Machine.forLoop` is the same
  statement run test by test with its counter `i` and a bound on the number of
  tests; the recursion on doubles is proved to be its run.
* Every run records how many loop bodies were entered, whether the value came
  from the `return` inside the loop, and how many times the supplied functions
  were called inside the loop.
-/

namespace RootFinding

/-- How a call of one of the three methods ends. -/
inductive Outcome (α : Type) where
  /-- The call returns the number `r`. -/
  | value (r : α)
  /-- The call throws `std::runtime_error("Root not bracketed, ...")`. -/
  | thrown
  /-- A division had a zero divisor: no exception, the call returns a
  non-finite `double`. -/
  | nonFinite
  deriving DecidableEq, Repr

/-- The record of one run.  After a zero divisor the counters cover the loop
bodies up to and including the one that divided. -/
structure Run (α : Type) where
  /-- How the call ended. -/
  outcome : Outcome α
  /-- Number of loop bodies entered. -/
  steps : Nat
  /-- Whether the value was returned by the `return` inside the loop. -/
  early : Bool
  /-- Calls of `func` made inside the loop. -/
  funcCalls : Nat
  /-- Calls of `derivative` made inside the loop. -/
  derivCalls : Nat
  deriving DecidableEq, Repr

/-- The run of a loop that is left at once by the `return` after the loop. -/
def Run.exhausted {α : Type} (r : α) : Run α :=
  ⟨Outcome.value r, 0, false, 0, 0⟩

/-- The run of a loop body that ends in the `return` inside the loop, after
`fc` calls of `func` and `dc` calls of `derivative`. -/
def Run.stop {α : Type} (r : α) (fc dc : Nat) : Run α :=
  ⟨Outcome.value r, 1, true, fc, dc⟩

/-- The run of a loop body whose division has a zero divisor. -/
def Run.divZero {α : Type} (fc dc : Nat) : Run α :=
  ⟨Outcome.nonFinite, 1, false, fc, dc⟩

/-- One more loop body, with `fc` calls of `func` and `dc` calls of
`derivative`, in front of the run `r`. -/
def Run.tick {α : Type} (r : Run α) (fc dc : Nat) : Run α :=
  ⟨r.outcome, r.steps + 1, r.early, r.funcCalls + fc, r.derivCalls + dc⟩

section Methods

variable {α : Type} [LinearOrderedField α]

/-- The target function `f` of `function_input.cxx`: `x*x - 2`. -/
def f (x : α) : α := x * x - 2

/-- The derivative `df` of `function_input.cxx`: `2*x`. -/
def df (x : α) : α := 2 * x

/-- The loop of `bisection` (lines 37-52) with `n` iterations left, from the
bracket `left_limit`, `right_limit` and the cached values `f_left`,
`f_right`. -/
def bisectionLoop (func : α → α) (tol : α) :
    Nat → α → α → α → α → Run α
  | 0, left_limit, right_limit, _, _ =>
      Run.exhausted ((left_limit + right_limit) / 2)
  | n + 1, left_limit, right_limit, f_left, f_right =>
      let mid := (left_limit + right_limit) / 2
      let f_mid := func mid
      if f_mid = 0 ∨ (right_limit - left_limit) / 2 < tol then
        Run.stop mid 1 0
      else if f_mid * f_left < 0 then
        (bisectionLoop func tol n left_limit mid f_left f_mid).tick 1 0
      else
        (bisectionLoop func tol n mid right_limit f_mid f_right).tick 1 0

/-- The function `bisection` (lines 29-53). -/
def bisection (func : α → α) (left_limit right_limit tol : α) (max_iter : Int) :
    Run α :=
  let f_left := func left_limit
  let f_right := func right_limit
  if f_left * f_right > 0 then
    ⟨Outcome.thrown, 0, false, 0, 0⟩
  else
    bisectionLoop func tol max_iter.toNat left_limit right_limit f_left f_right

/-- The loop of `newton_raphson` (lines 83-90) with `n` iterations left, at the
iterate `x`. -/
def newtonLoop (func derivative : α → α) (tol : α) : Nat → α → Run α
  | 0, x => Run.exhausted x
  | n + 1, x =>
      if derivative x = 0 then
        Run.divZero 1 1
      else
        let dx := -func x / derivative x
        if |dx| < tol then
          Run.stop (x + dx) 1 1
        else
          (newtonLoop func derivative tol n (x + dx)).tick 1 1

/-- The function `newton_raphson` (lines 82-91). -/
def newton_raphson (func derivative : α → α) (x tol : α) (max_iter : Int) :
    Run α :=
  newtonLoop func derivative tol max_iter.toNat x

/-- The loop of `secant` (lines 122-130) with `n` iterations left, at the older
iterate `x0` and the newer iterate `x1`. -/
def secantLoop (func : α → α) (tol : α) : Nat → α → α → Run α
  | 0, _, x1 => Run.exhausted x1
  | n + 1, x0, x1 =>
      if func x1 - func x0 = 0 then
        Run.divZero 3 0
      else
        let dx := (x1 - x0) * func x1 / (func x1 - func x0)
        if |dx| < tol then
          Run.stop (x1 - dx) 3 0
        else
          (secantLoop func tol n x1 (x1 - dx)).tick 3 0

/-- The function `secant` (lines 94-131). -/
def secant (func : α → α) (x0 x1 tol : α) (max_iter : Int) : Run α :=
  secantLoop func tol max_iter.toNat x0 x1

/-- The state of the loop of `bisection`: the bracket and the cached function
values at its two ends. -/
structure Bracket (α : Type) where
  /-- The variable `left_limit`. -/
  left_limit : α
  /-- The variable `right_limit`. -/
  right_limit : α
  /-- The variable `f_left`. -/
  f_left : α
  /-- The variable `f_right`. -/
  f_right : α
  deriving DecidableEq, Repr

/-- The midpoint `mid` computed at line 38 from the bracket `s`. -/
def Bracket.mid (s : Bracket α) : α := (s.left_limit + s.right_limit) / 2

/-- One body of the loop of `bisection` (lines 38-49) on the state `s`: `none`
when the body returns `mid` (line 41), the updated state otherwise. -/
def bisectionStep (func : α → α) (tol : α) (s : Bracket α) : Option (Bracket α) :=
  let mid := (s.left_limit + s.right_limit) / 2
  let f_mid := func mid
  if f_mid = 0 ∨ (s.right_limit - s.left_limit) / 2 < tol then
    none
  else if f_mid * s.f_left < 0 then
    some ⟨s.left_limit, mid, s.f_left, f_mid⟩
  else
    some ⟨mid, s.right_limit, f_mid, s.f_right⟩

/-- The state of the loop of `bisection` after `k` bodies from the state `s`,
`none` when one of them returned. -/
def bisectionState (func : α → α) (tol : α) : Nat → Bracket α → Option (Bracket α)
  | 0, s => some s
  | k + 1, s => (bisectionStep func tol s).bind (bisectionState func tol k)

/-- The state in which `bisection` enters its loop (lines 30-31). -/
def bisectionInit (func : α → α) (left_limit right_limit : α) : Bracket α :=
  ⟨left_limit, right_limit, func left_limit, func right_limit⟩

end Methods

/-! ## The methods on the arithmetic of `double`

The definitions above read a `double` as an exact number.  The definitions below
read the same source lines over an arbitrary arithmetic `Arith D` on the type
`D` of doubles: every `+`, `-`, `*`, `/`, unary `-`, `std::abs`, `<`, `>` and
`==` of the source is the corresponding operation of the arithmetic, whatever
it computes, and there is no other branch.  `B64` is IEEE 754 binary64 with
rounding to nearest, ties to even, each operation rounded on its own, and NaNs
not told apart. -/

/-- The operations on the type `D` of doubles that the three methods use. -/
structure Arith (D : Type) where
  /-- The literal `0` converted to `double`. -/
  zero : D
  /-- The literal `2` converted to `double`. -/
  two : D
  /-- The operation `x + y`. -/
  add : D → D → D
  /-- The operation `x - y`. -/
  sub : D → D → D
  /-- The operation `x * y`. -/
  mul : D → D → D
  /-- The operation `x / y`. -/
  div : D → D → D
  /-- The operation `-x`. -/
  neg : D → D
  /-- The function `std::abs`. -/
  abs : D → D
  /-- The comparison `x < y` (and `y > x`). -/
  lt : D → D → Bool
  /-- The comparison `x <= y`. -/
  le : D → D → Bool
  /-- The comparison `x == y`. -/
  eq : D → D → Bool

/-- Facts of IEEE 754 arithmetic, with `nonFinite` holding of the infinities
and of NaN: a division by zero, a division by the difference of two equal
values, and every operation on a non-finite first (or,
for sums and differences, either) argument give a non-finite value, no
comparison `abs(x) < t` holds for a non-finite `x`; negation commutes with
division, `x + (-y)` is `x - y`, `abs(-y)` is `abs(y)`, products commute; and
the comparisons with zero are those of an order. -/
structure Arith.IEEE {D : Type} (A : Arith D) (nonFinite : D → Prop) : Prop where
  /-- A quotient by a zero divisor is an infinity or a NaN. -/
  div_zero : ∀ a d, A.eq d A.zero = true → nonFinite (A.div a d)
  /-- A quotient by the difference of two equal values is an infinity or a
  NaN (the difference is a zero, or NaN for two equal infinities). -/
  div_sub_eq : ∀ c a b, A.eq a b = true → nonFinite (A.div c (A.sub a b))
  /-- A sum with a non-finite first term is non-finite. -/
  add_left : ∀ x y, nonFinite x → nonFinite (A.add x y)
  /-- A sum with a non-finite second term is non-finite. -/
  add_right : ∀ x y, nonFinite y → nonFinite (A.add x y)
  /-- A difference with a non-finite first term is non-finite. -/
  sub_left : ∀ x y, nonFinite x → nonFinite (A.sub x y)
  /-- A difference with a non-finite second term is non-finite. -/
  sub_right : ∀ x y, nonFinite y → nonFinite (A.sub x y)
  /-- A product with a non-finite first factor is non-finite. -/
  mul_left : ∀ x y, nonFinite x → nonFinite (A.mul x y)
  /-- A quotient with a non-finite dividend is non-finite. -/
  div_left : ∀ x y, nonFinite x → nonFinite (A.div x y)
  /-- The absolute value of a non-finite value is below nothing. -/
  abs_lt : ∀ x t, nonFinite x → A.lt (A.abs x) t = false
  /-- Negating the dividend negates the quotient. -/
  div_neg : ∀ a b, A.div (A.neg a) b = A.neg (A.div a b)
  /-- Adding the opposite is subtracting. -/
  add_neg : ∀ x y, A.add x (A.neg y) = A.sub x y
  /-- The absolute value ignores the sign. -/
  abs_neg : ∀ y, A.abs (A.neg y) = A.abs y
  /-- Products commute. -/
  mul_comm : ∀ a b, A.mul a b = A.mul b a
  /-- An absolute value is below positive values only. -/
  pos_of_abs_lt : ∀ x t, A.lt (A.abs x) t = true → A.lt A.zero t = true
  /-- A value that is at most zero is not positive. -/
  not_pos_of_le : ∀ t, A.le t A.zero = true → A.lt A.zero t = false
  /-- A value below a value that is at most zero is negative. -/
  neg_of_lt_of_le : ∀ x t, A.lt x t = true → A.le t A.zero = true →
    A.lt x A.zero = true

/-- Exact arithmetic on a linearly ordered field, as an arithmetic (with the
convention `x / 0 = 0` of fields, so it is not an IEEE arithmetic). -/
def Arith.exact (α : Type) [LinearOrderedField α] : Arith α where
  zero := 0
  two := 2
  add := fun x y => x + y
  sub := fun x y => x - y
  mul := fun x y => x * y
  div := fun x y => x / y
  neg := fun x => -x
  abs := fun x => |x|
  lt := fun x y => decide (x < y)
  le := fun x y => decide (x ≤ y)
  eq := fun x y => decide (x = y)

/-- An IEEE 754 binary64 value: the finite value `± n / 2 ^ 1074` (with the
two zeros `± 0`), an infinity, or NaN.  The finite doubles are those with
`n < 2 ^ 53`, or `n = m * 2 ^ s` with `m < 2 ^ 53`, below `2 ^ 2098`. -/
inductive B64 where
  /-- The finite value `n / 2 ^ 1074`, negated when `neg` is set. -/
  | fin (neg : Bool) (n : Nat)
  /-- The infinity, negative when `neg` is set. -/
  | inf (neg : Bool)
  /-- Not a number. -/
  | nan
  deriving DecidableEq, Repr

namespace B64

/-- One step of the search for the position of the leading bit of `n`. -/
def log2Step (n k lo : Nat) : Nat :=
  if 2 ^ (lo + 2 ^ k) ≤ n then lo + 2 ^ k else lo

/-- The position of the leading bit of `n < 2 ^ 8192`: the largest `k` with
`2 ^ k ≤ n`, and `0` for `n = 0`. -/
def floorLog2 (n : Nat) : Nat :=
  log2Step n 0 (log2Step n 1 (log2Step n 2 (log2Step n 3 (log2Step n 4
    (log2Step n 5 (log2Step n 6 (log2Step n 7 (log2Step n 8 (log2Step n 9
      (log2Step n 10 (log2Step n 11 (log2Step n 12 0))))))))))))

/-- Rounding to nearest, ties to even: the double nearest to
`± (num / den) / 2 ^ 1074`.  With `q` the integer part of `num / den`, the
doubles around it are the multiples of `s = 2 ^ (bits of q - 53)` (of `1` when
`q < 2 ^ 53`); a result of `2 ^ 2098` or more is an overflow. -/
def roundQ (neg : Bool) (num den : Nat) : B64 :=
  let q := num / den
  let s := 2 ^ (floorLog2 q + 1 - 53)
  let m0 := q / s
  let rem := num - m0 * s * den
  let m :=
    if s * den < 2 * rem ∨ (2 * rem = s * den ∧ m0 % 2 = 1) then m0 + 1 else m0
  if 2 ^ 2098 ≤ m * s then inf neg else fin neg (m * s)

/-- The operation `-x`. -/
def neg : B64 → B64
  | fin s n => fin (!s) n
  | inf s => inf (!s)
  | nan => nan

/-- The function `std::abs`. -/
def abs : B64 → B64
  | fin _ n => fin false n
  | inf _ => inf false
  | nan => nan

/-- The operation `x + y`. -/
def add : B64 → B64 → B64
  | nan, _ => nan
  | _, nan => nan
  | inf s, inf t => if s = t then inf s else nan
  | inf s, fin _ _ => inf s
  | fin _ _, inf t => inf t
  | fin s n, fin t m =>
      if s = t then roundQ s (n + m) 1
      else if m < n then roundQ s (n - m) 1
      else if n < m then roundQ t (m - n) 1
      else fin false 0

/-- The operation `x - y`. -/
def sub (x y : B64) : B64 := add x (neg y)

/-- The operation `x * y`. -/
def mul : B64 → B64 → B64
  | nan, _ => nan
  | _, nan => nan
  | inf s, inf t => inf (xor s t)
  | inf s, fin t m => if m = 0 then nan else inf (xor s t)
  | fin s n, inf t => if n = 0 then nan else inf (xor s t)
  | fin s n, fin t m => roundQ (xor s t) (n * m) (2 ^ 1074)

/-- The operation `x / y`. -/
def div : B64 → B64 → B64
  | nan, _ => nan
  | _, nan => nan
  | inf _, inf _ => nan
  | inf s, fin t _ => inf (xor s t)
  | fin s _, inf t => fin (xor s t) 0
  | fin s n, fin t m =>
      if m = 0 then (if n = 0 then nan else inf (xor s t))
      else roundQ (xor s t) (n * 2 ^ 1074) m

/-- The signed integer `± n` of a finite value `± n / 2 ^ 1074`. -/
def signed (s : Bool) (n : Nat) : Int := if s then -(n : Int) else n

/-- The comparison `x < y`: false when an argument is NaN, the two zeros
equal, the infinities beyond every finite value. -/
def lt : B64 → B64 → Bool
  | nan, _ => false
  | _, nan => false
  | inf s, inf t => s && !t
  | inf s, fin _ _ => s
  | fin _ _, inf t => !t
  | fin s n, fin t m => decide (signed s n < signed t m)

/-- The comparison `x <= y`. -/
def le : B64 → B64 → Bool
  | nan, _ => false
  | _, nan => false
  | inf s, inf t => s || !t
  | inf s, fin _ _ => s
  | fin _ _, inf t => !t
  | fin s n, fin t m => decide (signed s n ≤ signed t m)

/-- The comparison `x == y`. -/
def eq : B64 → B64 → Bool
  | nan, _ => false
  | _, nan => false
  | inf s, inf t => decide (s = t)
  | inf _, fin _ _ => false
  | fin _ _, inf _ => false
  | fin s n, fin t m => decide (signed s n = signed t m)

/-- The double `m * 2 ^ k / 2 ^ 1074`, for `m < 2 ^ 53`: `of 1 1074` is `1.0`. -/
def of (m k : Nat) : B64 := fin false (m * 2 ^ k)

/-- The infinities and NaN. -/
def nonFinite : B64 → Prop
  | fin _ _ => False
  | _ => True

/-- The exact value of a finite double (`0` for the others). -/
def toRat : B64 → ℚ
  | fin s n => (if s then -1 else 1) * (n : ℚ) / 2 ^ 1074
  | _ => 0

/-- The arithmetic of binary64. -/
def arith : Arith B64 where
  zero := fin false 0
  two := of 2 1074
  add := add
  sub := sub
  mul := mul
  div := div
  neg := neg
  abs := abs
  lt := lt
  le := le
  eq := eq

end B64

namespace Machine

variable {D : Type}

/-- The target function `f` of `function_input.cxx`, `x*x - 2`, on doubles. -/
def f (A : Arith D) (x : D) : D := A.sub (A.mul x x) A.two

/-- The derivative `df` of `function_input.cxx`, `2*x`, on doubles. -/
def df (A : Arith D) (x : D) : D := A.mul A.two x

/-- The loop of `bisection` (lines 37-52) on doubles, with `n` iterations
left. -/
def bisectionLoop (A : Arith D) (func : D → D) (tol : D) :
    Nat → D → D → D → D → Run D
  | 0, left_limit, right_limit, _, _ =>
      Run.exhausted (A.div (A.add left_limit right_limit) A.two)
  | n + 1, left_limit, right_limit, f_left, f_right =>
      let mid := A.div (A.add left_limit right_limit) A.two
      let f_mid := func mid
      if A.eq f_mid A.zero = true ∨
          A.lt (A.div (A.sub right_limit left_limit) A.two) tol = true then
        Run.stop mid 1 0
      else if A.lt (A.mul f_mid f_left) A.zero = true then
        (bisectionLoop A func tol n left_limit mid f_left f_mid).tick 1 0
      else
        (bisectionLoop A func tol n mid right_limit f_mid f_right).tick 1 0

/-- The function `bisection` (lines 29-53) on doubles. -/
def bisection (A : Arith D) (func : D → D) (left_limit right_limit tol : D)
    (max_iter : Int) : Run D :=
  let f_left := func left_limit
  let f_right := func right_limit
  if A.lt A.zero (A.mul f_left f_right) = true then
    ⟨Outcome.thrown, 0, false, 0, 0⟩
  else
    bisectionLoop A func tol max_iter.toNat left_limit right_limit f_left f_right

/-- The step `dx` of line 84 at the iterate `x`. -/
def newtonDx (A : Arith D) (func derivative : D → D) (x : D) : D :=
  A.div (A.neg (func x)) (derivative x)

/-- The loop of `newton_raphson` (lines 83-90) on doubles, with `n` iterations
left. -/
def newtonLoop (A : Arith D) (func derivative : D → D) (tol : D) :
    Nat → D → Run D
  | 0, x => Run.exhausted x
  | n + 1, x =>
      let dx := newtonDx A func derivative x
      if A.lt (A.abs dx) tol = true then
        Run.stop (A.add x dx) 1 1
      else
        (newtonLoop A func derivative tol n (A.add x dx)).tick 1 1

/-- The function `newton_raphson` (lines 82-91) on doubles. -/
def newton_raphson (A : Arith D) (func derivative : D → D) (x tol : D)
    (max_iter : Int) : Run D :=
  newtonLoop A func derivative tol max_iter.toNat x

/-- The step `dx` of line 123 at the older iterate `x0` and the newer iterate
`x1`. -/
def secantDx (A : Arith D) (func : D → D) (x0 x1 : D) : D :=
  A.div (A.mul (A.sub x1 x0) (func x1)) (A.sub (func x1) (func x0))

/-- The loop of `secant` (lines 122-130) on doubles, with `n` iterations
left. -/
def secantLoop (A : Arith D) (func : D → D) (tol : D) : Nat → D → D → Run D
  | 0, _, x1 => Run.exhausted x1
  | n + 1, x0, x1 =>
      let dx := secantDx A func x0 x1
      if A.lt (A.abs dx) tol = true then
        Run.stop (A.sub x1 dx) 3 0
      else
        (secantLoop A func tol n x1 (A.sub x1 dx)).tick 3 0

/-- The function `secant` (lines 94-131) on doubles. -/
def secant (A : Arith D) (func : D → D) (x0 x1 tol : D) (max_iter : Int) :
    Run D :=
  secantLoop A func tol max_iter.toNat x0 x1

/-- The iterate that lines 84-85 reach from `x` after `k` loop bodies. -/
def newtonIter (A : Arith D) (func derivative : D → D) : Nat → D → D
  | 0, x => x
  | k + 1, x =>
      newtonIter A func derivative k (A.add x (newtonDx A func derivative x))

/-- The pair (older, newer) that lines 123-125 reach from `(x0, x1)` after `k`
loop bodies. -/
def secantIter (A : Arith D) (func : D → D) : Nat → D → D → D × D
  | 0, x0, x1 => (x0, x1)
  | k + 1, x0, x1 =>
      secantIter A func k x1 (A.sub x1 (secantDx A func x0 x1))

/-- The recurrence as the comment above `newton_raphson` words it (line 60),
evaluated on doubles: `x_0 = x0`, `x_{n+1} = x_n - f(x_n) / f'(x_n)`. -/
def newtonSeq (A : Arith D) (func derivative : D → D) (x0 : D) : Nat → D
  | 0 => x0
  | n + 1 =>
      A.sub (newtonSeq A func derivative x0 n)
        (A.div (func (newtonSeq A func derivative x0 n))
          (derivative (newtonSeq A func derivative x0 n)))

/-- The quotient of the recurrence as the comment inside `secant` words it
(line 100), at the older term `a` and the newer term `b`:
`f(b) * (b - a) / (f(b) - f(a))`. -/
def secantQuot (A : Arith D) (func : D → D) (a b : D) : D :=
  A.div (A.mul (func b) (A.sub b a)) (A.sub (func b) (func a))

/-- The recurrence as the comment inside `secant` words it (line 100),
evaluated on doubles: `s_0 = x0`, `s_1 = x1`,
`s_{n+1} = s_n - f(s_n) * (s_n - s_{n-1}) / (f(s_n) - f(s_{n-1}))`. -/
def secantSeq (A : Arith D) (func : D → D) (x0 x1 : D) : Nat → D
  | 0 => x0
  | 1 => x1
  | n + 2 =>
      A.sub (secantSeq A func x0 x1 (n + 1))
        (secantQuot A func (secantSeq A func x0 x1 n) (secantSeq A func x0 x1 (n + 1)))

/-- One body of the loop of `bisection` (lines 38-49) on doubles, on the state
`s`: `none` when the body returns `mid` (line 41), the updated state
otherwise. -/
def bisectionStep (A : Arith D) (func : D → D) (tol : D) (s : Bracket D) :
    Option (Bracket D) :=
  let mid := A.div (A.add s.left_limit s.right_limit) A.two
  let f_mid := func mid
  if A.eq f_mid A.zero = true ∨
      A.lt (A.div (A.sub s.right_limit s.left_limit) A.two) tol = true then
    none
  else if A.lt (A.mul f_mid s.f_left) A.zero = true then
    some ⟨s.left_limit, mid, s.f_left, f_mid⟩
  else
    some ⟨mid, s.right_limit, f_mid, s.f_right⟩

/-- The state of the loop of `bisection` on doubles after `k` bodies from the
state `s`, `none` when one of them returned. -/
def bisectionState (A : Arith D) (func : D → D) (tol : D) :
    Nat → Bracket D → Option (Bracket D)
  | 0, s => some s
  | k + 1, s => (bisectionStep A func tol s).bind (bisectionState A func tol k)

/-- The loop body of `bisection` (lines 38-49) on doubles, on the state `s`:
the value returned by line 41, or the state to go on from. -/
def bisectionBody (A : Arith D) (func : D → D) (tol : D) (s : Bracket D) :
    Bracket D ⊕ D :=
  let mid := A.div (A.add s.left_limit s.right_limit) A.two
  let f_mid := func mid
  if A.eq f_mid A.zero = true ∨
      A.lt (A.div (A.sub s.right_limit s.left_limit) A.two) tol = true then
    Sum.inr mid
  else if A.lt (A.mul f_mid s.f_left) A.zero = true then
    Sum.inl ⟨s.left_limit, mid, s.f_left, f_mid⟩
  else
    Sum.inl ⟨mid, s.right_limit, f_mid, s.f_right⟩

/-- The loop body of `newton_raphson` (lines 84-88) on doubles, at the iterate
`x`: the value returned by line 87, or the iterate to go on from. -/
def newtonBody (A : Arith D) (func derivative : D → D) (tol : D) (x : D) : D ⊕ D :=
  let dx := newtonDx A func derivative x
  if A.lt (A.abs dx) tol = true then Sum.inr (A.add x dx) else Sum.inl (A.add x dx)

/-- The loop body of `secant` (lines 123-128) on doubles, at the pair
`(x0, x1)`: the value returned by line 127, or the pair to go on from. -/
def secantBody (A : Arith D) (func : D → D) (tol : D) (p : D × D) : (D × D) ⊕ D :=
  let dx := secantDx A func p.1 p.2
  if A.lt (A.abs dx) tol = true then Sum.inr (A.sub p.2 dx)
  else Sum.inl (p.2, A.sub p.2 dx)

/-- The statement `for (int i = 0; i < max_iter; i++) body` followed by
`return after`, run from the counter `i` and the variables `s` with at most
`fuel` evaluations of the test `i < max_iter`: `none` when the fuel runs out
before a `return` is reached, otherwise the value returned and the number of
loop bodies entered. -/
def forLoop {S : Type} (max_iter : Int) (body : S → S ⊕ D) (after : S → D) :
    Nat → Int → S → Option (D × Nat)
  | 0, _, _ => none
  | fuel + 1, i, s =>
      if i < max_iter then
        match body s with
        | Sum.inr r => some (r, 1)
        | Sum.inl t =>
            (forLoop max_iter body after fuel (i + 1) t).map (fun p => (p.1, p.2 + 1))
      else some (after s, 0)

end Machine

/-! ## Bookkeeping lemmas -/

section Records

variable {α : Type}

@[simp] theorem Run.tick_outcome (r : Run α) (fc dc : Nat) :
    (r.tick fc dc).outcome = r.outcome := rfl

@[simp] theorem Run.tick_steps (r : Run α) (fc dc : Nat) :
    (r.tick fc dc).steps = r.steps + 1 := rfl

@[simp] theorem Run.tick_early (r : Run α) (fc dc : Nat) :
    (r.tick fc dc).early = r.early := rfl

@[simp] theorem Run.tick_funcCalls (r : Run α) (fc dc : Nat) :
    (r.tick fc dc).funcCalls = r.funcCalls + fc := rfl

@[simp] theorem Run.tick_derivCalls (r : Run α) (fc dc : Nat) :
    (r.tick fc dc).derivCalls = r.derivCalls + dc := rfl

@[simp] theorem Run.stop_outcome (r : α) (fc dc : Nat) :
    (Run.stop r fc dc).outcome = Outcome.value r := rfl

@[simp] theorem Run.stop_steps (r : α) (fc dc : Nat) :
    (Run.stop r fc dc).steps = 1 := rfl

@[simp] theorem Run.stop_early (r : α) (fc dc : Nat) :
    (Run.stop r fc dc).early = true := rfl

@[simp] theorem Run.exhausted_outcome (r : α) :
    (Run.exhausted r).outcome = Outcome.value r := rfl

@[simp] theorem Run.exhausted_steps (r : α) : (Run.exhausted r).steps = 0 := rfl

@[simp] theorem Run.exhausted_early (r : α) :
    (Run.exhausted r).early = false := rfl

@[simp] theorem Run.divZero_outcome (fc dc : Nat) :
    (Run.divZero fc dc : Run α).outcome = Outcome.nonFinite := rfl

@[simp] theorem Run.divZero_steps (fc dc : Nat) :
    (Run.divZero fc dc : Run α).steps = 1 := rfl

@[simp] theorem Run.divZero_early (fc dc : Nat) :
    (Run.divZero fc dc : Run α).early = false := rfl

end Records

section Basics

variable {α : Type} [LinearOrderedField α]

/-- The midpoint of a bracket lies in the bracket. -/
theorem mid_mem {l r : α} (h : l ≤ r) : l ≤ (l + r) / 2 ∧ (l + r) / 2 ≤ r := by
  constructor
  · rw [le_div_iff₀ (by norm_num : (0 : α) < 2)]; linarith
  · rw [div_le_iff₀ (by norm_num : (0 : α) < 2)]; linarith

/-- The bisection loop always returns a number, and that number lies in the
bracket it was started on. -/
theorem bisectionLoop_mem (func : α → α) (tol : α) (n : Nat) :
    ∀ l r fl fr : α, l ≤ r →
      ∃ v, (bisectionLoop func tol n l r fl fr).outcome = Outcome.value v ∧
        l ≤ v ∧ v ≤ r := by
  induction n with
  | zero =>
      intro l r fl fr h
      exact ⟨(l + r) / 2, rfl, mid_mem h⟩
  | succ n ih =>
      intro l r fl fr h
      obtain ⟨h1, h2⟩ := mid_mem h
      simp only [bisectionLoop]
      split_ifs with hstop hneg
      · exact ⟨(l + r) / 2, rfl, h1, h2⟩
      · obtain ⟨v, hv, hl, hr⟩ := ih l ((l + r) / 2) fl (func ((l + r) / 2)) h1
        exact ⟨v, by simpa using hv, hl, hr.trans h2⟩
      · obtain ⟨v, hv, hl, hr⟩ := ih ((l + r) / 2) r (func ((l + r) / 2)) fr h2
        exact ⟨v, by simpa using hv, h1.trans hl, hr⟩

/-- Every point of a bracket is within half its width of the midpoint. -/
theorem mid_dist {l r x : α} (hl : l ≤ x) (hr : x ≤ r) :
    |(l + r) / 2 - x| ≤ (r - l) / 2 := by
  rw [abs_le]
  constructor
  · rw [neg_le_sub_iff_le_add, div_add_div_same,
      le_div_iff₀ (by norm_num : (0 : α) < 2)]
    linarith
  · rw [sub_le_iff_le_add, div_le_iff₀ (by norm_num : (0 : α) < 2)]
    have : (r - l) / 2 * 2 = r - l := by field_simp
    linarith

/-- If `u` and `w` have strictly opposite signs and the nonzero `v` does not
have the sign opposite to `u`, then `v` and `w` have strictly opposite signs. -/
theorem sign_transfer {u v w : α} (huw : u * w < 0) (hvu : ¬ v * u < 0)
    (hv : v ≠ 0) : v * w < 0 := by
  rcases lt_or_gt_of_ne hv with hneg | hpos
  · rcases mul_neg_iff.mp huw with ⟨hu, _⟩ | ⟨_, hw⟩
    · exact absurd (mul_neg_of_neg_of_pos hneg hu) hvu
    · exact mul_neg_of_neg_of_pos hneg hw
  · rcases mul_neg_iff.mp huw with ⟨_, hw⟩ | ⟨hu, _⟩
    · exact mul_neg_of_pos_of_neg hpos hw
    · exact absurd (mul_neg_of_pos_of_neg hpos hu) hvu

/-- Halving a width and dividing by `2 ^ (n + 1)` is dividing by
`2 ^ (n + 2)`. -/
theorem half_width (l r : α) (n : Nat) :
    ((l + r) / 2 - l) / 2 ^ (n + 1) = (r - l) / 2 ^ (n + 1 + 1) ∧
      (r - (l + r) / 2) / 2 ^ (n + 1) = (r - l) / 2 ^ (n + 1 + 1) := by
  constructor <;> (rw [pow_succ _ (n + 1)]; field_simp; ring)

/-- A loop body of `newton_raphson` that neither divides by zero nor stops. -/
theorem newtonLoop_continue (func derivative : α → α) (tol : α) (n : Nat)
    (x y : α) (hd : derivative x ≠ 0) (hy : x + -func x / derivative x = y)
    (hs : ¬ |(-func x / derivative x)| < tol) :
    newtonLoop func derivative tol (n + 1) x =
      (newtonLoop func derivative tol n y).tick 1 1 := by
  subst hy
  simp only [newtonLoop, hd, hs, if_false]

/-- A loop body of `newton_raphson` that stops. -/
theorem newtonLoop_stop (func derivative : α → α) (tol : α) (n : Nat)
    (x y : α) (hd : derivative x ≠ 0) (hy : x + -func x / derivative x = y)
    (hs : |(-func x / derivative x)| < tol) :
    newtonLoop func derivative tol (n + 1) x = Run.stop y 1 1 := by
  subst hy
  simp only [newtonLoop, hd, hs, if_false, if_true]

/-- A loop body of `secant` that neither divides by zero nor stops. -/
theorem secantLoop_continue (func : α → α) (tol : α) (n : Nat) (x0 x1 y : α)
    (hd : func x1 - func x0 ≠ 0)
    (hy : x1 - (x1 - x0) * func x1 / (func x1 - func x0) = y)
    (hs : ¬ |(x1 - x0) * func x1 / (func x1 - func x0)| < tol) :
    secantLoop func tol (n + 1) x0 x1 = (secantLoop func tol n x1 y).tick 3 0 := by
  subst hy
  simp only [secantLoop, hd, hs, if_false]

/-- A loop body of `secant` that stops. -/
theorem secantLoop_stop (func : α → α) (tol : α) (n : Nat) (x0 x1 y : α)
    (hd : func x1 - func x0 ≠ 0)
    (hy : x1 - (x1 - x0) * func x1 / (func x1 - func x0) = y)
    (hs : |(x1 - x0) * func x1 / (func x1 - func x0)| < tol) :
    secantLoop func tol (n + 1) x0 x1 = Run.stop y 3 0 := by
  subst hy
  simp only [secantLoop, hd, hs, if_false, if_true]

/-- An iteration cap above `k` leaves room for `k + 1` loop bodies. -/
theorem toNat_split (max_iter : Int) (k : Nat) (hk : (k : Int) < max_iter) :
    max_iter.toNat = (max_iter.toNat - (k + 1)) + (k + 1) := by
  omega

/-- The loop of `bisection` with at least one iteration left, read through
`bisectionStep`: it returns the midpoint when the step returns, and goes on
from the updated state otherwise. -/
theorem bisectionLoop_step (func : α → α) (tol : α) (n : Nat) (s : Bracket α) :
    bisectionLoop func tol (n + 1) s.left_limit s.right_limit s.f_left s.f_right =
      match bisectionStep func tol s with
      | none => Run.stop s.mid 1 0
      | some t =>
          (bisectionLoop func tol n t.left_limit t.right_limit t.f_left
            t.f_right).tick 1 0 := by
  simp only [bisectionLoop, bisectionStep, Bracket.mid]
  split_ifs <;> rfl

/-- A step of `bisection` returns exactly when the value at the midpoint is
zero or half the width of the bracket is below `tol`. -/
theorem bisectionStep_eq_none (func : α → α) (tol : α) (s : Bracket α) :
    bisectionStep func tol s = none ↔
      (func s.mid = 0 ∨ (s.right_limit - s.left_limit) / 2 < tol) := by
  simp only [bisectionStep, Bracket.mid]
  split_ifs with h1 h2 <;> simp [h1]

/-- A step of `bisection` that goes on replaces one endpoint by the midpoint
and keeps the other. -/
theorem bisectionStep_eq_some (func : α → α) (tol : α) (s t : Bracket α)
    (h : bisectionStep func tol s = some t) :
    (t.left_limit = s.left_limit ∧ t.right_limit = s.mid) ∨
      (t.left_limit = s.mid ∧ t.right_limit = s.right_limit) := by
  simp only [bisectionStep, Bracket.mid] at h ⊢
  split_ifs at h with h1 h2
  · left
    cases h
    exact ⟨rfl, rfl⟩
  · right
    cases h
    exact ⟨rfl, rfl⟩

/-- A step of `bisection` that goes on halves the width of the bracket. -/
theorem bisectionStep_width (func : α → α) (tol : α) (s t : Bracket α)
    (h : bisectionStep func tol s = some t) :
    t.right_limit - t.left_limit = (s.right_limit - s.left_limit) / 2 := by
  rcases bisectionStep_eq_some func tol s t h with ⟨hl, hr⟩ | ⟨hl, hr⟩
  · rw [hl, hr, Bracket.mid]; ring
  · rw [hl, hr, Bracket.mid]; ring

/-- After `k` steps that go on, the width of the bracket is the initial width
divided by `2 ^ k`. -/
theorem bisectionState_width (func : α → α) (tol : α) (k : Nat) :
    ∀ s t : Bracket α, bisectionState func tol k s = some t →
      t.right_limit - t.left_limit = (s.right_limit - s.left_limit) / 2 ^ k := by
  induction k with
  | zero =>
      intro s t h
      simp only [bisectionState, Option.some.injEq] at h
      subst h
      simp
  | succ k ih =>
      intro s t h
      simp only [bisectionState, Option.bind_eq_some] at h
      obtain ⟨u, hu, ht⟩ := h
      rw [ih u t ht, bisectionStep_width func tol s u hu, pow_succ, div_div,
        mul_comm]

/-- The run of the loop of `bisection` from a state reached after `k` steps
that go on: same outcome and same exit as the run from the initial state, with
`k` loop bodies less. -/
theorem bisectionLoop_state (func : α → α) (tol : α) (n k : Nat) :
    ∀ s t : Bracket α, bisectionState func tol k s = some t →
      (bisectionLoop func tol (n + k) s.left_limit s.right_limit s.f_left
          s.f_right).outcome =
        (bisectionLoop func tol n t.left_limit t.right_limit t.f_left
          t.f_right).outcome ∧
      (bisectionLoop func tol (n + k) s.left_limit s.right_limit s.f_left
          s.f_right).early =
        (bisectionLoop func tol n t.left_limit t.right_limit t.f_left
          t.f_right).early ∧
      (bisectionLoop func tol (n + k) s.left_limit s.right_limit s.f_left
          s.f_right).steps =
        (bisectionLoop func tol n t.left_limit t.right_limit t.f_left
          t.f_right).steps + k := by
  induction k with
  | zero =>
      intro s t h
      simp only [bisectionState, Option.some.injEq] at h
      subst h
      simp
  | succ k ih =>
      intro s t h
      simp only [bisectionState, Option.bind_eq_some] at h
      obtain ⟨u, hu, ht⟩ := h
      obtain ⟨h1, h2, h3⟩ := ih u t ht
      have hstep := bisectionLoop_step func tol (n + k) s
      rw [hu] at hstep
      rw [show n + (k + 1) = n + k + 1 from rfl, hstep]
      simp only [Run.tick_outcome, Run.tick_early, Run.tick_steps]
      exact ⟨h1, h2, by omega⟩

/-- Inside its loop `bisection` calls `func` once per loop body. -/
theorem bisectionLoop_calls (func : α → α) (tol : α) (n : Nat) :
    ∀ l r fl fr : α,
      (bisectionLoop func tol n l r fl fr).funcCalls =
          (bisectionLoop func tol n l r fl fr).steps ∧
        (bisectionLoop func tol n l r fl fr).derivCalls = 0 := by
  induction n with
  | zero => intro l r fl fr; exact ⟨rfl, rfl⟩
  | succ n ih =>
      intro l r fl fr
      simp only [bisectionLoop]
      split_ifs with hstop hneg
      · exact ⟨rfl, rfl⟩
      · simpa using ih l ((l + r) / 2) fl (func ((l + r) / 2))
      · simpa using ih ((l + r) / 2) r (func ((l + r) / 2)) fr

/-- The loop of `newton_raphson` calls `func` once and `derivative` once per
loop body. -/
theorem newtonLoop_calls (func derivative : α → α) (tol : α) (n : Nat) :
    ∀ x : α,
      (newtonLoop func derivative tol n x).funcCalls =
          (newtonLoop func derivative tol n x).steps ∧
        (newtonLoop func derivative tol n x).derivCalls =
          (newtonLoop func derivative tol n x).steps := by
  induction n with
  | zero => intro x; exact ⟨rfl, rfl⟩
  | succ n ih =>
      intro x
      simp only [newtonLoop]
      split_ifs with hz hstop
      · exact ⟨rfl, rfl⟩
      · exact ⟨rfl, rfl⟩
      · simpa using ih (x + -func x / derivative x)

/-- The loop of `secant` calls `func` three times per loop body. -/
theorem secantLoop_calls (func : α → α) (tol : α) (n : Nat) :
    ∀ x0 x1 : α,
      (secantLoop func tol n x0 x1).funcCalls =
          3 * (secantLoop func tol n x0 x1).steps ∧
        (secantLoop func tol n x0 x1).derivCalls = 0 := by
  induction n with
  | zero => intro x0 x1; exact ⟨rfl, rfl⟩
  | succ n ih =>
      intro x0 x1
      simp only [secantLoop]
      split_ifs with hz hstop
      · exact ⟨rfl, rfl⟩
      · exact ⟨rfl, rfl⟩
      · obtain ⟨h1, h2⟩ := ih x1 (x1 - (x1 - x0) * func x1 / (func x1 - func x0))
        refine ⟨?_, by simpa using h2⟩
        simp only [Run.tick_funcCalls, Run.tick_steps, h1]
        ring

/-- The state after `k + 1` steps is the state after `k` steps followed by one
more step. -/
theorem bisectionState_succ (func : α → α) (tol : α) (k : Nat) :
    ∀ s : Bracket α, bisectionState func tol (k + 1) s =
      (bisectionState func tol k s).bind (bisectionStep func tol) := by
  induction k with
  | zero =>
      intro s
      simp only [bisectionState, Option.some_bind]
      cases bisectionStep func tol s <;> rfl
  | succ k ih =>
      intro s
      rw [bisectionState]
      cases h : bisectionStep func tol s with
      | none => simp [bisectionState, h]
      | some u =>
          simp only [Option.some_bind]
          rw [ih u]
          conv_rhs => rw [bisectionState, h]
          simp

/-- A run of the loop of `bisection` that ends in the `return` inside the loop
has entered at least one loop body. -/
theorem bisectionLoop_early_pos (func : α → α) (tol : α) (n : Nat)
    (l r fl fr : α) (h : (bisectionLoop func tol n l r fl fr).early = true) :
    0 < (bisectionLoop func tol n l r fl fr).steps := by
  cases n with
  | zero => simp [bisectionLoop] at h
  | succ n =>
      simp only [bisectionLoop]
      split_ifs <;> simp

/-- The loop of `bisection` on a state whose step returns. -/
theorem bisectionLoop_step_none (func : α → α) (tol : α) (n : Nat) (s : Bracket α)
    (h : bisectionStep func tol s = none) :
    bisectionLoop func tol (n + 1) s.left_limit s.right_limit s.f_left s.f_right =
      Run.stop s.mid 1 0 := by
  rw [bisectionLoop_step, h]

/-- The loop of `bisection` on a state whose step goes on to the state `t`. -/
theorem bisectionLoop_step_some (func : α → α) (tol : α) (n : Nat) (s t : Bracket α)
    (h : bisectionStep func tol s = some t) :
    bisectionLoop func tol (n + 1) s.left_limit s.right_limit s.f_left s.f_right =
      (bisectionLoop func tol n t.left_limit t.right_limit t.f_left t.f_right).tick
        1 0 := by
  rw [bisectionLoop_step, h]

end Basics

/-! ## Lemmas on the reals and the runs of the spec's instances -/

section Reals

/-- Intermediate value theorem on a bracket with a strict sign change. -/
theorem exists_root_of_sign_change {func : ℝ → ℝ} {l r : ℝ} (hlr : l ≤ r)
    (hcont : ContinuousOn func (Set.Icc l r)) (hsign : func l * func r < 0) :
    ∃ x, l ≤ x ∧ x ≤ r ∧ func x = 0 := by
  rcases mul_neg_iff.mp hsign with ⟨hl, hr⟩ | ⟨hl, hr⟩
  · obtain ⟨x, hx, hfx⟩ := intermediate_value_Icc' hlr hcont
      (Set.mem_Icc.mpr ⟨hr.le, hl.le⟩)
    exact ⟨x, hx.1, hx.2, hfx⟩
  · obtain ⟨x, hx, hfx⟩ := intermediate_value_Icc hlr hcont
      (Set.mem_Icc.mpr ⟨hl.le, hr.le⟩)
    exact ⟨x, hx.1, hx.2, hfx⟩

/-- The bisection loop started on a bracket with a strict sign change, with
enough iterations left to halve the bracket below `tol`, returns a number
within `tol` of a root lying in that bracket. -/
theorem bisectionLoop_near_root (func : ℝ → ℝ) (tol : ℝ) (htol : 0 < tol)
    (n : Nat) :
    ∀ l r : ℝ, l ≤ r → ContinuousOn func (Set.Icc l r) →
      func l * func r < 0 → (r - l) / 2 ^ (n + 1) < tol →
      ∃ v, (bisectionLoop func tol n l r (func l) (func r)).outcome = Outcome.value v ∧
        ∃ x, l ≤ x ∧ x ≤ r ∧ func x = 0 ∧ |v - x| < tol := by
  induction n with
  | zero =>
      intro l r hlr hcont hsign hw
      obtain ⟨x, hlx, hxr, hfx⟩ := exists_root_of_sign_change hlr hcont hsign
      refine ⟨(l + r) / 2, rfl, x, hlx, hxr, hfx, ?_⟩
      have hd := mid_dist hlx hxr
      simp only [zero_add, pow_one] at hw
      exact lt_of_le_of_lt hd hw
  | succ n ih =>
      intro l r hlr hcont hsign hw
      obtain ⟨h1, h2⟩ := mid_mem hlr
      simp only [bisectionLoop]
      split_ifs with hstop hneg
      · rcases hstop with hzero | hsmall
        · exact ⟨(l + r) / 2, rfl, (l + r) / 2, h1, h2, hzero, by simpa using htol⟩
        · obtain ⟨x, hlx, hxr, hfx⟩ := exists_root_of_sign_change hlr hcont hsign
          exact ⟨(l + r) / 2, rfl, x, hlx, hxr, hfx,
            lt_of_le_of_lt (mid_dist hlx hxr) hsmall⟩
      · have hs : func l * func ((l + r) / 2) < 0 := by rwa [mul_comm]
        obtain ⟨v, hv, x, hlx, hxm, hfx, hd⟩ := ih l ((l + r) / 2) h1
          (hcont.mono (Set.Icc_subset_Icc le_rfl h2)) hs
          (by rw [(half_width l r n).1]; exact hw)
        exact ⟨v, by simpa using hv, x, hlx, hxm.trans h2, hfx, hd⟩
      · have hmid : func ((l + r) / 2) ≠ 0 := fun h => hstop (Or.inl h)
        have hs : func ((l + r) / 2) * func r < 0 := sign_transfer hsign hneg hmid
        obtain ⟨v, hv, x, hmx, hxr, hfx, hd⟩ := ih ((l + r) / 2) r h2
          (hcont.mono (Set.Icc_subset_Icc h1 le_rfl)) hs
          (by rw [(half_width l r n).2]; exact hw)
        exact ⟨v, by simpa using hv, x, h1.trans hmx, hxr, hfx, hd⟩

/-- One Newton-Raphson step on `x*x - 2` from a positive `x`: the new iterate
is positive, is not below `sqrt 2`, and exceeds `sqrt 2` by at most the size of
the step. -/
theorem newton_step_sqrt_two (x : ℝ) (hx : 0 < x) :
    0 < x + -f x / df x ∧ Real.sqrt 2 ≤ x + -f x / df x ∧
      x + -f x / df x - Real.sqrt 2 ≤ |(-f x / df x)| := by
  have hs0 : 0 < Real.sqrt 2 := Real.sqrt_pos.mpr (by norm_num)
  have hs2 : Real.sqrt 2 * Real.sqrt 2 = 2 := Real.mul_self_sqrt (by norm_num)
  have h2x : 0 < 2 * x := by linarith
  have hnew : x + -f x / df x = (x * x + 2) / (2 * x) := by
    simp only [f, df]; field_simp; ring
  have hdx : -f x / df x = (2 - x * x) / (2 * x) := by
    simp only [f, df]; ring
  have hlow : Real.sqrt 2 ≤ (x * x + 2) / (2 * x) := by
    rw [le_div_iff₀ h2x]
    nlinarith [sq_nonneg (x - Real.sqrt 2)]
  refine ⟨by rw [hnew]; positivity, by rw [hnew]; exact hlow, ?_⟩
  rcases le_total x (Real.sqrt 2) with hle | hge
  · have : x + -f x / df x - Real.sqrt 2 ≤ -f x / df x := by linarith
    exact this.trans (le_abs_self _)
  · have hquot : -f x / df x * (2 * x) = 2 - x * x := by
      rw [hdx]; field_simp
    have hsx : Real.sqrt 2 * Real.sqrt 2 ≤ Real.sqrt 2 * x :=
      mul_le_mul_of_nonneg_left hge hs0.le
    have hmul : (x + -f x / df x - Real.sqrt 2) * x ≤ -(-f x / df x) * x := by
      linarith
    have hstep : x + -f x / df x - Real.sqrt 2 ≤ -(-f x / df x) :=
      le_of_mul_le_mul_right hmul hx
    exact hstep.trans (neg_le_abs _)

/-- The Newton-Raphson loop on `x*x - 2` from a positive iterate, when it ends
in the `return` inside the loop, returns a number in
`[sqrt 2, sqrt 2 + tol)`. -/
theorem newtonLoop_sqrt_two (tol : ℝ) (n : Nat) :
    ∀ x : ℝ, 0 < x → (newtonLoop f df tol n x).early = true →
      ∃ r, (newtonLoop f df tol n x).outcome = Outcome.value r ∧
        Real.sqrt 2 ≤ r ∧ r < Real.sqrt 2 + tol := by
  induction n with
  | zero => intro x _ h; simp [newtonLoop] at h
  | succ n ih =>
      intro x hx hearly
      obtain ⟨hpos, hlow, hup⟩ := newton_step_sqrt_two x hx
      have hd : df x ≠ 0 := by simp only [df]; positivity
      by_cases hs : |(-f x / df x)| < tol
      · rw [newtonLoop_stop f df tol n x _ hd rfl hs]
        exact ⟨_, rfl, hlow, by linarith⟩
      · rw [newtonLoop_continue f df tol n x _ hd rfl hs] at hearly ⊢
        simpa using ih _ hpos (by simpa using hearly)

/-- The run of `newton_raphson` on `x*x - 2` from `x0 = 1` with `tol = 1e-10`
and `max_iter = 50`: four loop bodies that go on, and a fifth that stops. -/
theorem newton_spec_run :
    newton_raphson f df (1 : ℝ) (1 / 10 ^ 10) 50 =
      ((((Run.stop (886731088897 / 627013566048 : ℝ) 1 1).tick 1 1).tick 1 1).tick 1 1).tick 1 1 := by
  have e1 := newtonLoop_continue f df (1 / 10 ^ 10 : ℝ) 49 1 (3 / 2)
    (by norm_num [df]) (by norm_num [f, df]) (by norm_num [f, df, abs_lt])
  have e2 := newtonLoop_continue f df (1 / 10 ^ 10 : ℝ) 48 (3 / 2) (17 / 12)
    (by norm_num [df]) (by norm_num [f, df]) (by norm_num [f, df, abs_lt])
  have e3 := newtonLoop_continue f df (1 / 10 ^ 10 : ℝ) 47 (17 / 12) (577 / 408)
    (by norm_num [df]) (by norm_num [f, df]) (by norm_num [f, df, abs_lt])
  have e4 := newtonLoop_continue f df (1 / 10 ^ 10 : ℝ) 46 (577 / 408) (665857 / 470832)
    (by norm_num [df]) (by norm_num [f, df]) (by norm_num [f, df, abs_lt])
  have e5 := newtonLoop_stop f df (1 / 10 ^ 10 : ℝ) 45 (665857 / 470832)
    (886731088897 / 627013566048)
    (by norm_num [df]) (by norm_num [f, df]) (by norm_num [f, df, abs_lt])
  show newtonLoop f df (1 / 10 ^ 10 : ℝ) (49 + 1) 1 = _
  rw [e1, e2, e3, e4, e5]

/-- The run of `secant` on `x*x - 2` from the guesses `1` and `2` with
`tol = 1e-10` and `max_iter = 50`: six loop bodies that go on, and a seventh
that stops. -/
theorem secant_spec_run :
    secant f (1 : ℚ) 2 (1 / 10 ^ 10) 50 =
      ((((((Run.stop (7309005751876 / 5168247530883 : ℚ) 3 0).tick 3 0).tick 3 0).tick
        3 0).tick 3 0).tick 3 0).tick 3 0 := by
  have e1 := secantLoop_continue f (1 / 10 ^ 10 : ℚ) 49 1 2 (4 / 3)
    (by norm_num [f]) (by norm_num [f]) (by norm_num [f, abs_lt])
  have e2 := secantLoop_continue f (1 / 10 ^ 10 : ℚ) 48 2 (4 / 3) (7 / 5)
    (by norm_num [f]) (by norm_num [f]) (by norm_num [f, abs_lt])
  have e3 := secantLoop_continue f (1 / 10 ^ 10 : ℚ) 47 (4 / 3) (7 / 5) (58 / 41)
    (by norm_num [f]) (by norm_num [f]) (by norm_num [f, abs_lt])
  have e4 := secantLoop_continue f (1 / 10 ^ 10 : ℚ) 46 (7 / 5) (58 / 41) (816 / 577)
    (by norm_num [f]) (by norm_num [f]) (by norm_num [f, abs_lt])
  have e5 := secantLoop_continue f (1 / 10 ^ 10 : ℚ) 45 (58 / 41) (816 / 577)
    (47321 / 33461)
    (by norm_num [f]) (by norm_num [f]) (by norm_num [f, abs_lt])
  have e6 := secantLoop_continue f (1 / 10 ^ 10 : ℚ) 44 (816 / 577) (47321 / 33461)
    (77227930 / 54608393)
    (by norm_num [f]) (by norm_num [f]) (by norm_num [f, abs_lt])
  have e7 := secantLoop_stop f (1 / 10 ^ 10 : ℚ) 43 (47321 / 33461)
    (77227930 / 54608393) (7309005751876 / 5168247530883)
    (by norm_num [f]) (by norm_num [f]) (by norm_num [f, abs_lt])
  show secantLoop f (1 / 10 ^ 10 : ℚ) (49 + 1) 1 2 = _
  rw [e1, e2, e3, e4, e5, e6, e7]

/-- A positive rational whose square is within reach of `2` is close to
`sqrt 2`. -/
theorem near_sqrt_two (r e : ℝ) (hlow : 0 ≤ r - e) (hl : (r - e) ^ 2 < 2)
    (hu : 2 < (r + e) ^ 2) (hpos : 0 < r + e) : |r - Real.sqrt 2| < e := by
  have h1 : r - e < Real.sqrt 2 := (Real.lt_sqrt hlow).mpr hl
  have h2 : Real.sqrt 2 < r + e := (Real.sqrt_lt' hpos).mpr hu
  rw [abs_lt]
  constructor <;> linarith

end Reals

/-! ## Binary64 is an IEEE arithmetic -/

/-- Rounding keeps the sign: negating the sign negates the result. -/
theorem b64_neg_roundQ (s : Bool) (num den : Nat) :
    B64.neg (B64.roundQ s num den) = B64.roundQ (!s) num den := by
  simp only [B64.roundQ]
  split_ifs <;> rfl

/-- The doubles equal to zero are the two zeros. -/
theorem b64_eq_zero (d : B64) (h : B64.eq d (B64.fin false 0) = true) :
    ∃ s, d = B64.fin s 0 := by
  cases d with
  | fin s n =>
      refine ⟨s, ?_⟩
      have h2 : B64.signed s n = B64.signed false 0 := of_decide_eq_true h
      have hn : n = 0 := by
        cases s <;> simp [B64.signed] at h2 <;> omega
      rw [hn]
  | inf s => exact absurd h (by simp [B64.eq])
  | nan => exact absurd h (by simp [B64.eq])

/-- A quotient by a zero is an infinity or NaN. -/
theorem b64_div_zero (a d : B64) (h : B64.eq d (B64.fin false 0) = true) :
    B64.nonFinite (B64.div a d) := by
  obtain ⟨s, rfl⟩ := b64_eq_zero d h
  cases a with
  | fin t n =>
      simp only [B64.div, if_true]
      split_ifs <;> trivial
  | inf t => trivial
  | nan => trivial

/-- A sum with a non-finite term is non-finite. -/
theorem b64_add_nonFinite (x y : B64) (h : B64.nonFinite x ∨ B64.nonFinite y) :
    B64.nonFinite (B64.add x y) := by
  cases x with
  | fin s n =>
      cases y with
      | fin t m => exact absurd h (by simp [B64.nonFinite])
      | inf t => trivial
      | nan => trivial
  | inf s =>
      cases y with
      | fin t m => trivial
      | inf t =>
          simp only [B64.add]
          split_ifs <;> trivial
      | nan => trivial
  | nan => cases y <;> trivial

/-- The opposite of a non-finite value is non-finite. -/
theorem b64_neg_nonFinite (y : B64) (h : B64.nonFinite y) :
    B64.nonFinite (B64.neg y) := by
  cases y with
  | fin s n => exact absurd h id
  | inf s => trivial
  | nan => trivial

/-- A product with a non-finite first factor is non-finite. -/
theorem b64_mul_nonFinite (x y : B64) (h : B64.nonFinite x) :
    B64.nonFinite (B64.mul x y) := by
  cases x with
  | fin s n => exact absurd h id
  | inf s =>
      cases y with
      | fin t m =>
          simp only [B64.mul]
          split_ifs <;> trivial
      | inf t => trivial
      | nan => trivial
  | nan => cases y <;> trivial

/-- A quotient with a non-finite dividend is non-finite. -/
theorem b64_div_nonFinite (x y : B64) (h : B64.nonFinite x) :
    B64.nonFinite (B64.div x y) := by
  cases x with
  | fin s n => exact absurd h id
  | inf s => cases y <;> trivial
  | nan => cases y <;> trivial

/-- The absolute value of a non-finite value is below nothing. -/
theorem b64_abs_lt_nonFinite (x t : B64) (h : B64.nonFinite x) :
    B64.lt (B64.abs x) t = false := by
  cases x with
  | fin s n => exact absurd h id
  | inf s => cases t <;> rfl
  | nan => cases t <;> rfl

/-- Negating the dividend negates the quotient. -/
theorem b64_div_neg (a b : B64) : B64.div (B64.neg a) b = B64.neg (B64.div a b) := by
  cases a with
  | fin s n =>
      cases b with
      | fin t m =>
          show B64.div (B64.fin (!s) n) (B64.fin t m) =
            B64.neg (B64.div (B64.fin s n) (B64.fin t m))
          simp only [B64.div]
          split_ifs
          · rfl
          · cases s <;> cases t <;> rfl
          · rw [b64_neg_roundQ]
            cases s <;> cases t <;> rfl
      | inf t => cases s <;> cases t <;> rfl
      | nan => rfl
  | inf s =>
      cases b with
      | fin t m => cases s <;> cases t <;> rfl
      | inf t => rfl
      | nan => rfl
  | nan => cases b <;> rfl

/-- Products commute. -/
theorem b64_mul_comm (a b : B64) : B64.mul a b = B64.mul b a := by
  cases a with
  | fin s n =>
      cases b with
      | fin t m => simp only [B64.mul, Nat.mul_comm n m, Bool.xor_comm s t]
      | inf t => simp only [B64.mul, Bool.xor_comm s t]
      | nan => rfl
  | inf s =>
      cases b with
      | fin t m => simp only [B64.mul, Bool.xor_comm s t]
      | inf t => simp only [B64.mul, Bool.xor_comm s t]
      | nan => rfl
  | nan => cases b <;> rfl

/-- An absolute value is below positive values only. -/
theorem b64_pos_of_abs_lt (x t : B64) (h : B64.lt (B64.abs x) t = true) :
    B64.lt (B64.fin false 0) t = true := by
  cases t with
  | fin u m =>
      cases x with
      | fin s n =>
          have h2 : B64.signed false n < B64.signed u m := of_decide_eq_true h
          have h3 : B64.signed false 0 < B64.signed u m := by
            simp only [B64.signed] at h2 ⊢
            simp only [Bool.false_eq_true, if_false] at h2 ⊢
            omega
          exact decide_eq_true h3
      | inf s => exact absurd h (by simp [B64.lt, B64.abs])
      | nan => exact absurd h (by simp [B64.lt, B64.abs])
  | inf u =>
      cases u
      · rfl
      · cases x with
        | fin s n => exact absurd h (by simp [B64.lt, B64.abs])
        | inf s => exact absurd h (by simp [B64.lt, B64.abs])
        | nan => exact absurd h (by simp [B64.lt, B64.abs])
  | nan => cases x <;> exact absurd h (by simp [B64.lt, B64.abs])

/-- A value that is at most zero is not positive. -/
theorem b64_not_pos_of_le (t : B64) (h : B64.le t (B64.fin false 0) = true) :
    B64.lt (B64.fin false 0) t = false := by
  cases t with
  | fin u m =>
      have h2 : B64.signed u m ≤ B64.signed false 0 := of_decide_eq_true h
      exact decide_eq_false (by omega)
  | inf u =>
      cases u
      · exact absurd h (by simp [B64.le])
      · rfl
  | nan => rfl

/-- A value below a value that is at most zero is negative. -/
theorem b64_neg_of_lt_of_le (x t : B64) (hx : B64.lt x t = true)
    (ht : B64.le t (B64.fin false 0) = true) : B64.lt x (B64.fin false 0) = true := by
  cases t with
  | fin u m =>
      have h2 : B64.signed u m ≤ B64.signed false 0 := of_decide_eq_true ht
      cases x with
      | fin s n =>
          have h1 : B64.signed s n < B64.signed u m := of_decide_eq_true hx
          exact decide_eq_true (by omega)
      | inf s => exact hx
      | nan => exact absurd hx (by simp [B64.lt])
  | inf u =>
      cases u
      · exact absurd ht (by simp [B64.le])
      · cases x with
        | fin s n => exact absurd hx (by simp [B64.lt])
        | inf s => exact absurd hx (by simp [B64.lt])
        | nan => exact absurd hx (by simp [B64.lt])
  | nan => exact absurd ht (by cases x <;> simp [B64.le])

set_option exponentiation.threshold 5000 in
/-- Rounding zero gives zero. -/
theorem b64_roundQ_zero (s : Bool) : B64.roundQ s 0 1 = B64.fin s 0 := by
  cases s <;> decide

/-- A quotient by the difference of two equal values is an infinity or NaN. -/
theorem b64_div_sub_eq (c a b : B64) (h : B64.eq a b = true) :
    B64.nonFinite (B64.div c (B64.sub a b)) := by
  cases a with
  | fin s n =>
      cases b with
      | fin t m =>
          have h2 : B64.signed s n = B64.signed t m := of_decide_eq_true h
          apply b64_div_zero
          simp only [B64.sub, B64.neg, B64.add]
          cases s <;> cases t <;> simp only [B64.signed] at h2 <;>
            simp only [Bool.false_eq_true, if_false, if_true] at h2
          · have hnm : n = m := by omega
            subst hnm
            simp [B64.eq, B64.signed]
          · have hn : n = 0 := by omega
            have hm : m = 0 := by omega
            subst hn hm
            simp [b64_roundQ_zero, B64.eq, B64.signed]
          · have hn : n = 0 := by omega
            have hm : m = 0 := by omega
            subst hn hm
            simp [b64_roundQ_zero, B64.eq, B64.signed]
          · have hnm : n = m := by omega
            subst hnm
            simp [B64.eq, B64.signed]
      | inf t => exact absurd h (by simp [B64.eq])
      | nan => exact absurd h (by simp [B64.eq])
  | inf s =>
      cases b with
      | fin t m => exact absurd h (by simp [B64.eq])
      | inf t =>
          have hst : s = t := of_decide_eq_true h
          subst hst
          have hsub : B64.sub (B64.inf s) (B64.inf s) = B64.nan := by
            cases s <;> rfl
          rw [hsub]
          cases c <;> trivial
      | nan => exact absurd h (by simp [B64.eq])
  | nan => exact absurd h (by cases b <;> simp [B64.eq])

/-- Binary64 satisfies the IEEE facts. -/
theorem b64_arith_IEEE : B64.arith.IEEE B64.nonFinite where
  div_zero := b64_div_zero
  div_sub_eq := b64_div_sub_eq
  add_left := fun x y h => b64_add_nonFinite x y (Or.inl h)
  add_right := fun x y h => b64_add_nonFinite x y (Or.inr h)
  sub_left := fun x y h => b64_add_nonFinite x (B64.neg y) (Or.inl h)
  sub_right := fun x y h =>
    b64_add_nonFinite x (B64.neg y) (Or.inr (b64_neg_nonFinite y h))
  mul_left := b64_mul_nonFinite
  div_left := b64_div_nonFinite
  abs_lt := b64_abs_lt_nonFinite
  div_neg := b64_div_neg
  add_neg := fun _ _ => rfl
  abs_neg := fun y => by cases y <;> rfl
  mul_comm := b64_mul_comm
  pos_of_abs_lt := b64_pos_of_abs_lt
  not_pos_of_le := b64_not_pos_of_le
  neg_of_lt_of_le := b64_neg_of_lt_of_le

/-! ## Lemmas on the methods on doubles -/

section
variable {D : Type}

/-- The loop of `bisection` on doubles returns a value on every input: it has
no `throw`. -/
theorem machine_bisectionLoop_value (A : Arith D) (func : D → D) (tol : D)
    (n : Nat) :
    ∀ l r fl fr : D,
      ∃ v, (Machine.bisectionLoop A func tol n l r fl fr).outcome = Outcome.value v := by
  induction n with
  | zero => intro l r fl fr; exact ⟨_, rfl⟩
  | succ n ih =>
      intro l r fl fr
      simp only [Machine.bisectionLoop]
      split_ifs with hstop hneg
      · exact ⟨_, rfl⟩
      · simpa using ih l _ fl _
      · simpa using ih _ r _ fr

/-- The loop of `bisection` on doubles enters at most `n` loop bodies. -/
theorem machine_bisectionLoop_steps (A : Arith D) (func : D → D) (tol : D)
    (n : Nat) :
    ∀ l r fl fr : D, (Machine.bisectionLoop A func tol n l r fl fr).steps ≤ n := by
  induction n with
  | zero => intro l r fl fr; exact Nat.le_refl 0
  | succ n ih =>
      intro l r fl fr
      simp only [Machine.bisectionLoop]
      split_ifs with hstop hneg
      · simp
      · simpa using ih l _ fl _
      · simpa using ih _ r _ fr

/-- The loop of `newton_raphson` on doubles enters at most `n` loop bodies. -/
theorem machine_newtonLoop_steps (A : Arith D) (func derivative : D → D) (tol : D)
    (n : Nat) :
    ∀ x : D, (Machine.newtonLoop A func derivative tol n x).steps ≤ n := by
  induction n with
  | zero => intro x; exact Nat.le_refl 0
  | succ n ih =>
      intro x
      simp only [Machine.newtonLoop]
      split_ifs with hstop
      · simp
      · simpa using ih _

/-- The loop of `secant` on doubles enters at most `n` loop bodies. -/
theorem machine_secantLoop_steps (A : Arith D) (func : D → D) (tol : D) (n : Nat) :
    ∀ x0 x1 : D, (Machine.secantLoop A func tol n x0 x1).steps ≤ n := by
  induction n with
  | zero => intro x0 x1; exact Nat.le_refl 0
  | succ n ih =>
      intro x0 x1
      simp only [Machine.secantLoop]
      split_ifs with hstop
      · simp
      · simpa using ih _ _

/-- A loop body of `newton_raphson` on doubles that does not stop. -/
theorem machine_newtonLoop_continue (A : Arith D) (func derivative : D → D)
    (tol : D) (n : Nat) (x : D)
    (hs : A.lt (A.abs (Machine.newtonDx A func derivative x)) tol = false) :
    Machine.newtonLoop A func derivative tol (n + 1) x =
      (Machine.newtonLoop A func derivative tol n
        (A.add x (Machine.newtonDx A func derivative x))).tick 1 1 := by
  simp [Machine.newtonLoop, hs]

/-- A loop body of `newton_raphson` on doubles that stops. -/
theorem machine_newtonLoop_stop (A : Arith D) (func derivative : D → D)
    (tol : D) (n : Nat) (x : D)
    (hs : A.lt (A.abs (Machine.newtonDx A func derivative x)) tol = true) :
    Machine.newtonLoop A func derivative tol (n + 1) x =
      Run.stop (A.add x (Machine.newtonDx A func derivative x)) 1 1 := by
  simp [Machine.newtonLoop, hs]

/-- A loop body of `secant` on doubles that does not stop. -/
theorem machine_secantLoop_continue (A : Arith D) (func : D → D) (tol : D)
    (n : Nat) (x0 x1 : D)
    (hs : A.lt (A.abs (Machine.secantDx A func x0 x1)) tol = false) :
    Machine.secantLoop A func tol (n + 1) x0 x1 =
      (Machine.secantLoop A func tol n x1
        (A.sub x1 (Machine.secantDx A func x0 x1))).tick 3 0 := by
  simp [Machine.secantLoop, hs]

/-- A loop body of `secant` on doubles that stops. -/
theorem machine_secantLoop_stop (A : Arith D) (func : D → D) (tol : D)
    (n : Nat) (x0 x1 : D)
    (hs : A.lt (A.abs (Machine.secantDx A func x0 x1)) tol = true) :
    Machine.secantLoop A func tol (n + 1) x0 x1 =
      Run.stop (A.sub x1 (Machine.secantDx A func x0 x1)) 3 0 := by
  simp [Machine.secantLoop, hs]

/-- From a non-finite iterate the loop of `newton_raphson` returns a non-finite
value. -/
theorem machine_newtonLoop_of_nonFinite (A : Arith D) (nonFinite : D → Prop)
    (hA : A.IEEE nonFinite) (func derivative : D → D) (tol : D) (n : Nat) :
    ∀ x : D, nonFinite x →
      ∃ r, (Machine.newtonLoop A func derivative tol n x).outcome = Outcome.value r ∧
        nonFinite r := by
  induction n with
  | zero => intro x hx; exact ⟨x, rfl, hx⟩
  | succ n ih =>
      intro x hx
      have hnext := hA.add_left x (Machine.newtonDx A func derivative x) hx
      cases hs : A.lt (A.abs (Machine.newtonDx A func derivative x)) tol with
      | true =>
          rw [machine_newtonLoop_stop A func derivative tol n x hs]
          exact ⟨_, rfl, hnext⟩
      | false =>
          rw [machine_newtonLoop_continue A func derivative tol n x hs]
          simpa using ih _ hnext

/-- A loop body of `newton_raphson` at an iterate where the derivative is zero:
the step is non-finite, the test fails, and the value returned in the end is
non-finite. -/
theorem machine_newtonLoop_zero (A : Arith D) (nonFinite : D → Prop)
    (hA : A.IEEE nonFinite) (func derivative : D → D) (tol : D) (n : Nat) (x : D)
    (hz : A.eq (derivative x) A.zero = true) :
    ∃ r, (Machine.newtonLoop A func derivative tol (n + 1) x).outcome =
        Outcome.value r ∧ nonFinite r := by
  have hdx : nonFinite (Machine.newtonDx A func derivative x) :=
    hA.div_zero _ _ hz
  rw [machine_newtonLoop_continue A func derivative tol n x (hA.abs_lt _ tol hdx)]
  simpa using machine_newtonLoop_of_nonFinite A nonFinite hA func derivative tol n _
    (hA.add_right x _ hdx)

/-- If the first `k` bodies of the loop of `newton_raphson` do not stop and the
derivative is zero at the iterate of body `k + 1`, the value returned is
non-finite. -/
theorem machine_newtonLoop_reach_zero (A : Arith D) (nonFinite : D → Prop)
    (hA : A.IEEE nonFinite) (func derivative : D → D) (tol : D) (n k : Nat) :
    ∀ x : D,
      (∀ j < k, A.lt (A.abs (Machine.newtonDx A func derivative
        (Machine.newtonIter A func derivative j x))) tol = false) →
      A.eq (derivative (Machine.newtonIter A func derivative k x)) A.zero = true →
      ∃ r, (Machine.newtonLoop A func derivative tol (n + (k + 1)) x).outcome =
          Outcome.value r ∧ nonFinite r := by
  induction k with
  | zero =>
      intro x _ hz
      exact machine_newtonLoop_zero A nonFinite hA func derivative tol n x hz
  | succ k ih =>
      intro x hgo hz
      have h0 : A.lt (A.abs (Machine.newtonDx A func derivative x)) tol = false :=
        hgo 0 (Nat.succ_pos k)
      rw [show n + (k + 1 + 1) = n + (k + 1) + 1 from rfl,
        machine_newtonLoop_continue A func derivative tol _ x h0]
      simpa using ih _ (fun j hj => hgo (j + 1) (Nat.succ_lt_succ hj)) hz

/-- From a non-finite newer iterate the loop of `secant` returns a non-finite
value. -/
theorem machine_secantLoop_of_nonFinite (A : Arith D) (nonFinite : D → Prop)
    (hA : A.IEEE nonFinite) (func : D → D) (tol : D) (n : Nat) :
    ∀ x0 x1 : D, nonFinite x1 →
      ∃ r, (Machine.secantLoop A func tol n x0 x1).outcome = Outcome.value r ∧
        nonFinite r := by
  induction n with
  | zero => intro x0 x1 hx; exact ⟨x1, rfl, hx⟩
  | succ n ih =>
      intro x0 x1 hx
      have hnext := hA.sub_left x1 (Machine.secantDx A func x0 x1) hx
      cases hs : A.lt (A.abs (Machine.secantDx A func x0 x1)) tol with
      | true =>
          rw [machine_secantLoop_stop A func tol n x0 x1 hs]
          exact ⟨_, rfl, hnext⟩
      | false =>
          rw [machine_secantLoop_continue A func tol n x0 x1 hs]
          simpa using ih _ _ hnext

/-- A loop body of `secant` at a pair of iterates with equal function values:
the step is non-finite, the test fails, and the value returned in the end is
non-finite. -/
theorem machine_secantLoop_tie (A : Arith D) (nonFinite : D → Prop)
    (hA : A.IEEE nonFinite) (func : D → D) (tol : D) (n : Nat) (x0 x1 : D)
    (hz : A.eq (func x1) (func x0) = true) :
    ∃ r, (Machine.secantLoop A func tol (n + 1) x0 x1).outcome = Outcome.value r ∧
      nonFinite r := by
  have hdx : nonFinite (Machine.secantDx A func x0 x1) := hA.div_sub_eq _ _ _ hz
  rw [machine_secantLoop_continue A func tol n x0 x1 (hA.abs_lt _ tol hdx)]
  simpa using machine_secantLoop_of_nonFinite A nonFinite hA func tol n _ _
    (hA.sub_right x1 _ hdx)

/-- If the first `k` bodies of the loop of `secant` do not stop and the
function values are equal at the pair of iterates of body `k + 1`, the value
returned is non-finite. -/
theorem machine_secantLoop_reach_tie (A : Arith D) (nonFinite : D → Prop)
    (hA : A.IEEE nonFinite) (func : D → D) (tol : D) (n k : Nat) :
    ∀ x0 x1 : D,
      (∀ j < k, A.lt (A.abs (Machine.secantDx A func
        (Machine.secantIter A func j x0 x1).1
        (Machine.secantIter A func j x0 x1).2)) tol = false) →
      A.eq (func (Machine.secantIter A func k x0 x1).2)
        (func (Machine.secantIter A func k x0 x1).1) = true →
      ∃ r, (Machine.secantLoop A func tol (n + (k + 1)) x0 x1).outcome =
          Outcome.value r ∧ nonFinite r := by
  induction k with
  | zero =>
      intro x0 x1 _ hz
      exact machine_secantLoop_tie A nonFinite hA func tol n x0 x1 hz
  | succ k ih =>
      intro x0 x1 hgo hz
      have h0 : A.lt (A.abs (Machine.secantDx A func x0 x1)) tol = false :=
        hgo 0 (Nat.succ_pos k)
      rw [show n + (k + 1 + 1) = n + (k + 1) + 1 from rfl,
        machine_secantLoop_continue A func tol _ x0 x1 h0]
      simpa using ih _ _ (fun j hj => hgo (j + 1) (Nat.succ_lt_succ hj)) hz

end

section
variable {D : Type}

/-- In IEEE arithmetic the update `x + dx` of line 85, with `dx` of line 84, is
the term `x - f(x) / f'(x)` of the documented recurrence. -/
theorem machine_newton_update (A : Arith D) (nonFinite : D → Prop)
    (hA : A.IEEE nonFinite) (func derivative : D → D) (x : D) :
    A.add x (Machine.newtonDx A func derivative x) =
      A.sub x (A.div (func x) (derivative x)) := by
  rw [Machine.newtonDx, hA.div_neg, hA.add_neg]

/-- In IEEE arithmetic the size of the step `dx` of line 84 is the size of the
quotient `f(x) / f'(x)`. -/
theorem machine_newton_abs_dx (A : Arith D) (nonFinite : D → Prop)
    (hA : A.IEEE nonFinite) (func derivative : D → D) (x : D) :
    A.abs (Machine.newtonDx A func derivative x) =
      A.abs (A.div (func x) (derivative x)) := by
  rw [Machine.newtonDx, hA.div_neg, hA.abs_neg]

/-- The documented Newton-Raphson recurrence on doubles started one step
later. -/
theorem machine_newtonSeq_shift (A : Arith D) (nonFinite : D → Prop)
    (hA : A.IEEE nonFinite) (func derivative : D → D) (x : D) (k : Nat) :
    Machine.newtonSeq A func derivative
        (A.add x (Machine.newtonDx A func derivative x)) k =
      Machine.newtonSeq A func derivative x (k + 1) := by
  induction k with
  | zero =>
      simp only [Machine.newtonSeq]
      exact machine_newton_update A nonFinite hA func derivative x
  | succ k ih => rw [Machine.newtonSeq, ih]; rfl

/-- In IEEE arithmetic the iterates of the code of `newton_raphson` are the
terms of the documented recurrence evaluated on doubles. -/
theorem machine_newtonIter_eq_seq (A : Arith D) (nonFinite : D → Prop)
    (hA : A.IEEE nonFinite) (func derivative : D → D) (k : Nat) :
    ∀ x : D, Machine.newtonIter A func derivative k x =
      Machine.newtonSeq A func derivative x k := by
  induction k with
  | zero => intro x; rfl
  | succ k ih =>
      intro x
      rw [Machine.newtonIter, ih, machine_newtonSeq_shift A nonFinite hA]

/-- If the first `k` bodies of the loop of `newton_raphson` on doubles do not
stop and body `k + 1` meets the test, the loop returns the iterate after
`k + 1` bodies from inside the loop. -/
theorem machine_newtonLoop_early (A : Arith D) (func derivative : D → D) (tol : D)
    (n k : Nat) :
    ∀ x : D,
      (∀ j < k, A.lt (A.abs (Machine.newtonDx A func derivative
        (Machine.newtonIter A func derivative j x))) tol = false) →
      A.lt (A.abs (Machine.newtonDx A func derivative
        (Machine.newtonIter A func derivative k x))) tol = true →
      (Machine.newtonLoop A func derivative tol (n + (k + 1)) x).outcome =
          Outcome.value (Machine.newtonIter A func derivative (k + 1) x) ∧
        (Machine.newtonLoop A func derivative tol (n + (k + 1)) x).early = true ∧
        (Machine.newtonLoop A func derivative tol (n + (k + 1)) x).steps = k + 1 := by
  induction k with
  | zero =>
      intro x _ hs
      have hs0 : A.lt (A.abs (Machine.newtonDx A func derivative x)) tol = true := hs
      rw [show n + (0 + 1) = n + 1 from rfl,
        machine_newtonLoop_stop A func derivative tol n x hs0]
      exact ⟨rfl, rfl, rfl⟩
  | succ k ih =>
      intro x hgo hs
      have h0 : A.lt (A.abs (Machine.newtonDx A func derivative x)) tol = false :=
        hgo 0 (Nat.succ_pos k)
      rw [show n + (k + 1 + 1) = n + (k + 1) + 1 from rfl,
        machine_newtonLoop_continue A func derivative tol _ x h0]
      simpa using ih _ (fun j hj => hgo (j + 1) (Nat.succ_lt_succ hj)) hs

/-- If none of the `n` bodies of the loop of `newton_raphson` on doubles meets
the test, the run is: the iterate after `n` bodies, returned after the loop,
with `n` loop bodies, `n` calls of `func` and `n` calls of `derivative`. -/
theorem machine_newtonLoop_exhaust (A : Arith D) (func derivative : D → D)
    (tol : D) (n : Nat) :
    ∀ x : D,
      (∀ j < n, A.lt (A.abs (Machine.newtonDx A func derivative
        (Machine.newtonIter A func derivative j x))) tol = false) →
      Machine.newtonLoop A func derivative tol n x =
        ⟨Outcome.value (Machine.newtonIter A func derivative n x), n, false, n, n⟩ := by
  induction n with
  | zero => intro x _; rfl
  | succ n ih =>
      intro x hgo
      have h0 : A.lt (A.abs (Machine.newtonDx A func derivative x)) tol = false :=
        hgo 0 (Nat.succ_pos n)
      rw [machine_newtonLoop_continue A func derivative tol n x h0,
        ih _ (fun j hj => hgo (j + 1) (Nat.succ_lt_succ hj))]
      rfl

/-- In IEEE arithmetic the step `dx` of line 123 is the quotient of the
documented recurrence. -/
theorem machine_secant_dx (A : Arith D) (nonFinite : D → Prop)
    (hA : A.IEEE nonFinite) (func : D → D) (x0 x1 : D) :
    Machine.secantDx A func x0 x1 = Machine.secantQuot A func x0 x1 := by
  rw [Machine.secantDx, Machine.secantQuot, hA.mul_comm]

/-- The documented secant recurrence on doubles started one step later. -/
theorem machine_secantSeq_shift (A : Arith D) (nonFinite : D → Prop)
    (hA : A.IEEE nonFinite) (func : D → D) (x0 x1 : D) (k : Nat) :
    Machine.secantSeq A func x1 (A.sub x1 (Machine.secantDx A func x0 x1)) k =
        Machine.secantSeq A func x0 x1 (k + 1) ∧
      Machine.secantSeq A func x1 (A.sub x1 (Machine.secantDx A func x0 x1)) (k + 1) =
        Machine.secantSeq A func x0 x1 (k + 2) := by
  induction k with
  | zero =>
      refine ⟨rfl, ?_⟩
      simp only [Machine.secantSeq]
      rw [machine_secant_dx A nonFinite hA]
  | succ k ih =>
      refine ⟨ih.2, ?_⟩
      rw [Machine.secantSeq, ih.1, ih.2]
      rfl

/-- In IEEE arithmetic the pairs of iterates of the code of `secant` are the
pairs of successive terms of the documented recurrence evaluated on doubles. -/
theorem machine_secantIter_eq_seq (A : Arith D) (nonFinite : D → Prop)
    (hA : A.IEEE nonFinite) (func : D → D) (k : Nat) :
    ∀ x0 x1 : D, Machine.secantIter A func k x0 x1 =
      (Machine.secantSeq A func x0 x1 k, Machine.secantSeq A func x0 x1 (k + 1)) := by
  induction k with
  | zero => intro x0 x1; rfl
  | succ k ih =>
      intro x0 x1
      rw [Machine.secantIter, ih, (machine_secantSeq_shift A nonFinite hA func x0 x1 k).1,
        (machine_secantSeq_shift A nonFinite hA func x0 x1 k).2]

/-- If the first `k` bodies of the loop of `secant` on doubles do not stop and
body `k + 1` meets the test, the loop returns the newer iterate after `k + 1`
bodies from inside the loop. -/
theorem machine_secantLoop_early (A : Arith D) (func : D → D) (tol : D)
    (n k : Nat) :
    ∀ x0 x1 : D,
      (∀ j < k, A.lt (A.abs (Machine.secantDx A func
        (Machine.secantIter A func j x0 x1).1
        (Machine.secantIter A func j x0 x1).2)) tol = false) →
      A.lt (A.abs (Machine.secantDx A func
        (Machine.secantIter A func k x0 x1).1
        (Machine.secantIter A func k x0 x1).2)) tol = true →
      (Machine.secantLoop A func tol (n + (k + 1)) x0 x1).outcome =
          Outcome.value (Machine.secantIter A func (k + 1) x0 x1).2 ∧
        (Machine.secantLoop A func tol (n + (k + 1)) x0 x1).early = true ∧
        (Machine.secantLoop A func tol (n + (k + 1)) x0 x1).steps = k + 1 := by
  induction k with
  | zero =>
      intro x0 x1 _ hs
      have hs0 : A.lt (A.abs (Machine.secantDx A func x0 x1)) tol = true := hs
      rw [show n + (0 + 1) = n + 1 from rfl,
        machine_secantLoop_stop A func tol n x0 x1 hs0]
      exact ⟨rfl, rfl, rfl⟩
  | succ k ih =>
      intro x0 x1 hgo hs
      have h0 : A.lt (A.abs (Machine.secantDx A func x0 x1)) tol = false :=
        hgo 0 (Nat.succ_pos k)
      rw [show n + (k + 1 + 1) = n + (k + 1) + 1 from rfl,
        machine_secantLoop_continue A func tol _ x0 x1 h0]
      simpa using ih _ _ (fun j hj => hgo (j + 1) (Nat.succ_lt_succ hj)) hs

/-- If none of the `n` bodies of the loop of `secant` on doubles meets the test,
the run is: the newer iterate after `n` bodies, returned after the loop, with
`n` loop bodies and `3 * n` calls of `func`. -/
theorem machine_secantLoop_exhaust (A : Arith D) (func : D → D) (tol : D)
    (n : Nat) :
    ∀ x0 x1 : D,
      (∀ j < n, A.lt (A.abs (Machine.secantDx A func
        (Machine.secantIter A func j x0 x1).1
        (Machine.secantIter A func j x0 x1).2)) tol = false) →
      Machine.secantLoop A func tol n x0 x1 =
        ⟨Outcome.value (Machine.secantIter A func n x0 x1).2, n, false, 3 * n, 0⟩ := by
  induction n with
  | zero => intro x0 x1 _; rfl
  | succ n ih =>
      intro x0 x1 hgo
      have h0 : A.lt (A.abs (Machine.secantDx A func x0 x1)) tol = false :=
        hgo 0 (Nat.succ_pos n)
      rw [machine_secantLoop_continue A func tol n x0 x1 h0,
        ih _ _ (fun j hj => hgo (j + 1) (Nat.succ_lt_succ hj))]
      simp only [Run.tick, Machine.secantIter, Run.mk.injEq, true_and, and_true]
      omega

/-- In IEEE arithmetic no absolute value is below a tolerance that is at most
zero. -/
theorem machine_abs_not_lt (A : Arith D) (nonFinite : D → Prop)
    (hA : A.IEEE nonFinite) (tol : D) (htol : A.le tol A.zero = true) (y : D) :
    A.lt (A.abs y) tol = false := by
  cases h : A.lt (A.abs y) tol with
  | false => rfl
  | true =>
      have h1 := hA.pos_of_abs_lt y tol h
      rw [hA.not_pos_of_le tol htol] at h1
      cases h1

/-- The run of the loop of `bisection` on doubles, read through
`bisectionStep`: either no step returns, and the run is the midpoint of the
bracket after `n` steps, returned after the loop, with `n` loop bodies and `n`
calls of `func`; or some step `k + 1 ≤ n` returns, and the run is the midpoint
of the bracket after `k` steps, returned from inside the loop, with `k + 1`
loop bodies and `k + 1` calls of `func`. -/
theorem machine_bisectionLoop_run (A : Arith D) (func : D → D) (tol : D) (n : Nat) :
    ∀ s : Bracket D,
      (∃ t, Machine.bisectionState A func tol n s = some t ∧
          Machine.bisectionLoop A func tol n s.left_limit s.right_limit s.f_left
              s.f_right =
            ⟨Outcome.value (A.div (A.add t.left_limit t.right_limit) A.two), n,
              false, n, 0⟩) ∨
        (∃ k < n, ∃ t, Machine.bisectionState A func tol k s = some t ∧
          Machine.bisectionStep A func tol t = none ∧
          Machine.bisectionLoop A func tol n s.left_limit s.right_limit s.f_left
              s.f_right =
            ⟨Outcome.value (A.div (A.add t.left_limit t.right_limit) A.two), k + 1,
              true, k + 1, 0⟩) := by
  induction n with
  | zero => intro s; exact Or.inl ⟨s, rfl, rfl⟩
  | succ n ih =>
      intro s
      cases hstep : Machine.bisectionStep A func tol s with
      | none =>
          refine Or.inr ⟨0, Nat.succ_pos n, s, rfl, hstep, ?_⟩
          simp only [Machine.bisectionStep] at hstep
          simp only [Machine.bisectionLoop]
          split_ifs at hstep ⊢ with h1
          rfl
      | some u =>
          have hloop : Machine.bisectionLoop A func tol (n + 1) s.left_limit
              s.right_limit s.f_left s.f_right =
              (Machine.bisectionLoop A func tol n u.left_limit u.right_limit
                u.f_left u.f_right).tick 1 0 := by
            simp only [Machine.bisectionStep] at hstep
            simp only [Machine.bisectionLoop]
            split_ifs at hstep ⊢ with h1 h2
            · cases hstep; rfl
            · cases hstep; rfl
          rcases ih u with ⟨t, ht, hrun⟩ | ⟨k, hk, t, ht, hnone, hrun⟩
          · refine Or.inl ⟨t, ?_, ?_⟩
            · simp only [Machine.bisectionState, hstep, Option.some_bind, ht]
            · rw [hloop, hrun]; rfl
          · refine Or.inr ⟨k + 1, Nat.succ_lt_succ hk, t, ?_, hnone, ?_⟩
            · simp only [Machine.bisectionState, hstep, Option.some_bind, ht]
            · rw [hloop, hrun]; rfl

/-- A step of `bisection` on doubles returns exactly when the value at the
midpoint equals zero or the computed half-width is below `tol`. -/
theorem machine_bisectionStep_eq_none (A : Arith D) (func : D → D) (tol : D)
    (s : Bracket D) :
    Machine.bisectionStep A func tol s = none ↔
      (A.eq (func (A.div (A.add s.left_limit s.right_limit) A.two)) A.zero = true ∨
        A.lt (A.div (A.sub s.right_limit s.left_limit) A.two) tol = true) := by
  simp only [Machine.bisectionStep]
  split_ifs with h1 h2 <;> simp [h1]

/-- The `for` statement of `newton_raphson` on doubles, run from a counter `i`
with `max_iter - i` bodies left and one more evaluation of its test as fuel,
reaches a `return` with the value and the number of bodies of the loop. -/
theorem machine_newton_forLoop (A : Arith D) (func derivative : D → D) (tol : D)
    (max_iter : Int) (n : Nat) :
    ∀ (i : Int) (x : D), (max_iter - i).toNat = n →
      ∃ r, (Machine.newtonLoop A func derivative tol n x).outcome = Outcome.value r ∧
        Machine.forLoop max_iter (Machine.newtonBody A func derivative tol) (fun x => x)
            (n + 1) i x =
          some (r, (Machine.newtonLoop A func derivative tol n x).steps) := by
  induction n with
  | zero =>
      intro i x hi
      have h : ¬ i < max_iter := by omega
      exact ⟨x, rfl, by simp only [Machine.forLoop, h, if_false]; rfl⟩
  | succ n ih =>
      intro i x hi
      have h : i < max_iter := by omega
      rw [Machine.forLoop, Machine.newtonLoop]
      simp only [Machine.newtonBody, h, if_true]
      by_cases hstop : A.lt (A.abs (Machine.newtonDx A func derivative x)) tol = true
      · simp only [hstop, if_true]
        exact ⟨_, rfl, rfl⟩
      · simp only [hstop, if_false]
        obtain ⟨r, hr, hf⟩ := ih (i + 1) (A.add x (Machine.newtonDx A func derivative x))
          (by omega)
        refine ⟨r, by simpa using hr, ?_⟩
        simp only [hf, Bool.false_eq_true, if_false, if_true, Run.tick_steps]
        rfl

/-- The `for` statement of `secant` on doubles, run from a counter `i` with
`max_iter - i` bodies left and one more evaluation of its test as fuel, reaches
a `return` with the value and the number of bodies of the loop. -/
theorem machine_secant_forLoop (A : Arith D) (func : D → D) (tol : D)
    (max_iter : Int) (n : Nat) :
    ∀ (i : Int) (x0 x1 : D), (max_iter - i).toNat = n →
      ∃ r, (Machine.secantLoop A func tol n x0 x1).outcome = Outcome.value r ∧
        Machine.forLoop max_iter (Machine.secantBody A func tol) (fun p => p.2)
            (n + 1) i (x0, x1) =
          some (r, (Machine.secantLoop A func tol n x0 x1).steps) := by
  induction n with
  | zero =>
      intro i x0 x1 hi
      have h : ¬ i < max_iter := by omega
      exact ⟨x1, rfl, by simp only [Machine.forLoop, h, if_false]; rfl⟩
  | succ n ih =>
      intro i x0 x1 hi
      have h : i < max_iter := by omega
      rw [Machine.forLoop, Machine.secantLoop]
      simp only [Machine.secantBody, h, if_true]
      by_cases hstop : A.lt (A.abs (Machine.secantDx A func x0 x1)) tol = true
      · simp only [hstop, if_true]
        exact ⟨_, rfl, rfl⟩
      · simp only [hstop, if_false]
        obtain ⟨r, hr, hf⟩ := ih (i + 1) x1 (A.sub x1 (Machine.secantDx A func x0 x1))
          (by omega)
        refine ⟨r, by simpa using hr, ?_⟩
        simp only [hf, Bool.false_eq_true, if_false, if_true, Run.tick_steps]
        rfl

/-- The `for` statement of `bisection` on doubles, run from a counter `i` with
`max_iter - i` bodies left and one more evaluation of its test as fuel, reaches
a `return` with the value and the number of bodies of the loop. -/
theorem machine_bisection_forLoop (A : Arith D) (func : D → D) (tol : D)
    (max_iter : Int) (n : Nat) :
    ∀ (i : Int) (s : Bracket D), (max_iter - i).toNat = n →
      ∃ r, (Machine.bisectionLoop A func tol n s.left_limit s.right_limit s.f_left
            s.f_right).outcome = Outcome.value r ∧
        Machine.forLoop max_iter (Machine.bisectionBody A func tol)
            (fun s => A.div (A.add s.left_limit s.right_limit) A.two) (n + 1) i s =
          some (r, (Machine.bisectionLoop A func tol n s.left_limit s.right_limit
            s.f_left s.f_right).steps) := by
  induction n with
  | zero =>
      intro i s hi
      have h : ¬ i < max_iter := by omega
      exact ⟨_, rfl, by simp only [Machine.forLoop, h, if_false]; rfl⟩
  | succ n ih =>
      intro i s hi
      have h : i < max_iter := by omega
      rw [Machine.forLoop, Machine.bisectionLoop]
      simp only [Machine.bisectionBody, h, if_true]
      by_cases hstop : A.eq (func (A.div (A.add s.left_limit s.right_limit) A.two)) A.zero
            = true ∨
          A.lt (A.div (A.sub s.right_limit s.left_limit) A.two) tol = true
      · simp only [hstop, if_true]
        exact ⟨_, rfl, rfl⟩
      all_goals simp only [hstop, if_false]
      by_cases hneg : A.lt (A.mul (func (A.div (A.add s.left_limit s.right_limit) A.two))
          s.f_left) A.zero = true
      all_goals simp only [hneg, if_true, if_false]
      · obtain ⟨r, hr, hf⟩ := ih (i + 1)
          ⟨s.left_limit, A.div (A.add s.left_limit s.right_limit) A.two, s.f_left,
            func (A.div (A.add s.left_limit s.right_limit) A.two)⟩ (by omega)
        refine ⟨r, by simpa using hr, ?_⟩
        simp only [hf, Bool.false_eq_true, if_false, if_true, Run.tick_steps]
        rfl
      · obtain ⟨r, hr, hf⟩ := ih (i + 1)
          ⟨A.div (A.add s.left_limit s.right_limit) A.two, s.right_limit,
            func (A.div (A.add s.left_limit s.right_limit) A.two), s.f_right⟩ (by omega)
        refine ⟨r, by simpa using hr, ?_⟩
        simp only [hf, Bool.false_eq_true, if_false, if_true, Run.tick_steps]
        rfl

end

/-! ## The exact reading is the reading on doubles at exact arithmetic -/

section
variable {α : Type} [LinearOrderedField α]

/-- The operations of exact arithmetic, read as an arithmetic, are the
operations of the field. -/
theorem exact_ops (x y : α) :
    (Arith.exact α).zero = 0 ∧ (Arith.exact α).two = 2 ∧
      (Arith.exact α).add x y = x + y ∧ (Arith.exact α).sub x y = x - y ∧
      (Arith.exact α).mul x y = x * y ∧ (Arith.exact α).div x y = x / y ∧
      (Arith.exact α).neg x = -x ∧ (Arith.exact α).abs x = |x| :=
  ⟨rfl, rfl, rfl, rfl, rfl, rfl, rfl, rfl⟩

/-- The comparisons of exact arithmetic, read as an arithmetic, are the
comparisons of the field. -/
theorem exact_cmp (x y : α) :
    ((Arith.exact α).lt x y = true ↔ x < y) ∧
      ((Arith.exact α).le x y = true ↔ x ≤ y) ∧
      ((Arith.exact α).eq x y = true ↔ x = y) :=
  ⟨decide_eq_true_iff, decide_eq_true_iff, decide_eq_true_iff⟩

/-- On exact arithmetic the loop of `bisection` on doubles is the loop of the
exact reading. -/
theorem machine_exact_bisectionLoop (func : α → α) (tol : α) (n : Nat) :
    ∀ l r fl fr : α,
      Machine.bisectionLoop (Arith.exact α) func tol n l r fl fr =
        bisectionLoop func tol n l r fl fr := by
  induction n with
  | zero => intro l r fl fr; rfl
  | succ n ih =>
      intro l r fl fr
      simp only [Machine.bisectionLoop, bisectionLoop, ih, (exact_cmp _ _).1,
        (exact_cmp _ _).2.2, (exact_ops _ _).2.2.1, (exact_ops _ _).2.2.2.1,
        (exact_ops _ _).2.2.2.2.1, (exact_ops _ _).2.2.2.2.2.1, (exact_ops (0 : α) 0).1,
        (exact_ops (0 : α) 0).2.1]

/-- On exact arithmetic `bisection` on doubles is `bisection` of the exact
reading. -/
theorem machine_exact_bisection (func : α → α) (a b tol : α) (max_iter : Int) :
    Machine.bisection (Arith.exact α) func a b tol max_iter =
      bisection func a b tol max_iter := by
  simp only [Machine.bisection, bisection, machine_exact_bisectionLoop,
    (exact_cmp _ _).1, (exact_ops _ _).2.2.2.2.1, (exact_ops (0 : α) 0).1, gt_iff_lt]

/-- On exact arithmetic the loop of `newton_raphson` on doubles is the loop of
the exact reading, as long as the latter meets no zero divisor. -/
theorem machine_exact_newtonLoop (func derivative : α → α) (tol : α) (n : Nat) :
    ∀ x : α, (newtonLoop func derivative tol n x).outcome ≠ Outcome.nonFinite →
      Machine.newtonLoop (Arith.exact α) func derivative tol n x =
        newtonLoop func derivative tol n x := by
  induction n with
  | zero => intro x _; rfl
  | succ n ih =>
      intro x h
      by_cases hd : derivative x = 0
      · simp [newtonLoop, hd] at h
      · by_cases hs : |(-func x / derivative x)| < tol
        · simp only [Machine.newtonLoop, Machine.newtonDx, newtonLoop, hd, hs, if_false,
            if_true, (exact_cmp _ _).1, (exact_ops _ _).2.2.1,
            (exact_ops _ _).2.2.2.2.2.1, (exact_ops _ (0 : α)).2.2.2.2.2.2.1,
            (exact_ops _ (0 : α)).2.2.2.2.2.2.2]
        · have hrec : (newtonLoop func derivative tol n
              (x + -func x / derivative x)).outcome ≠ Outcome.nonFinite := by
            simpa [newtonLoop, hd, hs] using h
          simp only [Machine.newtonLoop, Machine.newtonDx, newtonLoop, hd, hs, if_false,
            (exact_cmp _ _).1, (exact_ops _ _).2.2.1,
            (exact_ops _ _).2.2.2.2.2.1, (exact_ops _ (0 : α)).2.2.2.2.2.2.1,
            (exact_ops _ (0 : α)).2.2.2.2.2.2.2, ih _ hrec]

/-- On exact arithmetic the loop of `secant` on doubles is the loop of the
exact reading, as long as the latter meets no zero divisor. -/
theorem machine_exact_secantLoop (func : α → α) (tol : α) (n : Nat) :
    ∀ x0 x1 : α, (secantLoop func tol n x0 x1).outcome ≠ Outcome.nonFinite →
      Machine.secantLoop (Arith.exact α) func tol n x0 x1 =
        secantLoop func tol n x0 x1 := by
  induction n with
  | zero => intro x0 x1 _; rfl
  | succ n ih =>
      intro x0 x1 h
      by_cases hd : func x1 - func x0 = 0
      · simp [secantLoop, hd] at h
      · by_cases hs : |(x1 - x0) * func x1 / (func x1 - func x0)| < tol
        · simp only [Machine.secantLoop, Machine.secantDx, secantLoop, hd, hs, if_false,
            if_true, (exact_cmp _ _).1, (exact_ops _ _).2.2.2.1,
            (exact_ops _ _).2.2.2.2.1, (exact_ops _ _).2.2.2.2.2.1,
            (exact_ops _ (0 : α)).2.2.2.2.2.2.2]
        · have hrec : (secantLoop func tol n x1
              (x1 - (x1 - x0) * func x1 / (func x1 - func x0))).outcome ≠
                Outcome.nonFinite := by
            simpa [secantLoop, hd, hs] using h
          simp only [Machine.secantLoop, Machine.secantDx, secantLoop, hd, hs, if_false,
            (exact_cmp _ _).1, (exact_ops _ _).2.2.2.1,
            (exact_ops _ _).2.2.2.2.1, (exact_ops _ _).2.2.2.2.2.1,
            (exact_ops _ (0 : α)).2.2.2.2.2.2.2, ih _ _ hrec]

end

/-! ## The claims -/

section Claims

variable {α : Type} [LinearOrderedField α] {D : Type}

/-- C1: on every bracket `a ≤ b` with `func a * func b ≤ 0`, for every `tol`
and every `max_iter`, `bisection` returns a number `r` with `a ≤ r ≤ b`. -/
theorem bisection_result_in_bracket (func : α → α) (a b tol : α)
    (max_iter : Int) (hab : a ≤ b) (hsign : func a * func b ≤ 0) :
    ∃ r, (bisection func a b tol max_iter).outcome = Outcome.value r ∧
      a ≤ r ∧ r ≤ b := by
  simp only [bisection, gt_iff_lt, not_lt.mpr hsign, if_false]
  exact bisectionLoop_mem func tol _ a b _ _ hab

/-- The instance of C1 at the target `x*x - 2` on the bracket `[0, 2]`. -/
theorem bisection_result_in_bracket_witness :
    (0 : ℚ) ≤ 2 ∧ f (0 : ℚ) * f 2 ≤ 0 ∧
      ∃ r, (bisection f (0 : ℚ) 2 (1 / 10 ^ 6) 100).outcome = Outcome.value r ∧
        0 ≤ r ∧ r ≤ 2 :=
  ⟨by norm_num, by norm_num [f],
    bisection_result_in_bracket f 0 2 (1 / 10 ^ 6) 100 (by norm_num)
      (by norm_num [f])⟩

set_option exponentiation.threshold 5000 in
/-- C2, the claim refuted on doubles: for `func(x) = x` on `[2^-600, 2^-599]`
both function values are positive, so that `f(a) * f(b) > 0`, but the product
the code computes underflows to zero and `bisection` does not fail: with
`tol = 2^-20` it returns the midpoint `3 * 2^-601`. -/
theorem bisection_underflow_counterexample :
    0 < B64.toRat ((fun x : B64 => x) (B64.of 1 474))
        * B64.toRat ((fun x : B64 => x) (B64.of 1 475)) ∧
      (Machine.bisection B64.arith (fun x => x) (B64.of 1 474) (B64.of 1 475)
        (B64.of 1 1054) 5).outcome = Outcome.value (B64.of 3 473) ∧
      (Machine.bisection B64.arith (fun x => x) (B64.of 1 474) (B64.of 1 475)
        (B64.of 1 1054) 5).outcome ≠ Outcome.thrown := by
  refine ⟨?_, by decide, by decide⟩
  simp only [B64.toRat, B64.of, Bool.false_eq_true, if_false, one_mul]
  positivity

/-- C2 as amended: `bisection` throws exactly when the product
`f_left * f_right` that the code computes compares `> 0`, whatever `tol` and
`max_iter` are and whatever the arithmetic of doubles is; it throws before any
loop body is entered, and in every other case it returns a value. -/
theorem machine_bisection_throws_iff (A : Arith D) (func : D → D) (a b tol : D)
    (max_iter : Int) :
    ((Machine.bisection A func a b tol max_iter).outcome = Outcome.thrown ↔
        A.lt A.zero (A.mul (func a) (func b)) = true) ∧
      (A.lt A.zero (A.mul (func a) (func b)) = true →
        (Machine.bisection A func a b tol max_iter).steps = 0) ∧
      (¬ A.lt A.zero (A.mul (func a) (func b)) = true →
        ∃ r, (Machine.bisection A func a b tol max_iter).outcome = Outcome.value r) := by
  by_cases h : A.lt A.zero (A.mul (func a) (func b)) = true
  · simp [Machine.bisection, h]
  · obtain ⟨v, hv⟩ :=
      machine_bisectionLoop_value A func tol max_iter.toNat a b (func a) (func b)
    have hrun : Machine.bisection A func a b tol max_iter =
        Machine.bisectionLoop A func tol max_iter.toNat a b (func a) (func b) := by
      unfold Machine.bisection
      exact if_neg h
    rw [hrun, hv]
    exact ⟨⟨fun hc => Outcome.noConfusion hc, fun hc => absurd hc h⟩,
      fun hc => absurd hc h, fun _ => ⟨v, rfl⟩⟩

set_option exponentiation.threshold 5000 in
/-- The witness of C2 from the spec, on binary64: `x*x - 2` on `[1, 1.1]`
(`1.1` being the double `2476979795053773 * 2^-51`) has a positive computed
product and the call throws without entering the loop. -/
theorem machine_bisection_throws_iff_witness :
    B64.arith.lt B64.arith.zero
        (B64.arith.mul (Machine.f B64.arith (B64.of 1 1074))
          (Machine.f B64.arith (B64.of 2476979795053773 1023))) = true ∧
      (Machine.bisection B64.arith (Machine.f B64.arith) (B64.of 1 1074)
        (B64.of 2476979795053773 1023) (B64.of 1 1054) 100).outcome =
          Outcome.thrown ∧
      (Machine.bisection B64.arith (Machine.f B64.arith) (B64.of 1 1074)
        (B64.of 2476979795053773 1023) (B64.of 1 1054) 100).steps = 0 :=
  ⟨by decide,
    (machine_bisection_throws_iff B64.arith (Machine.f B64.arith) (B64.of 1 1074)
      (B64.of 2476979795053773 1023) (B64.of 1 1054) 100).1.2 (by decide),
    (machine_bisection_throws_iff B64.arith (Machine.f B64.arith) (B64.of 1 1074)
      (B64.of 2476979795053773 1023) (B64.of 1 1054) 100).2.1 (by decide)⟩

/-- C3: for `func` continuous on `[a, b]` with `a < b` and
`func a * func b < 0`, `tol > 0` and `max_iter ≥ 0` with
`(b - a) / 2 ^ (max_iter + 1) < tol`, `bisection` returns a number within `tol`
of a root of `func` lying in `[a, b]`. -/
theorem bisection_within_tol_of_root (func : ℝ → ℝ) (a b tol : ℝ)
    (max_iter : Int) (hab : a < b) (hcont : ContinuousOn func (Set.Icc a b))
    (hsign : func a * func b < 0) (htol : 0 < tol) (_hiter : 0 ≤ max_iter)
    (hcap : (b - a) / 2 ^ (max_iter.toNat + 1) < tol) :
    ∃ r, (bisection func a b tol max_iter).outcome = Outcome.value r ∧
      ∃ x, a ≤ x ∧ x ≤ b ∧ func x = 0 ∧ |r - x| < tol := by
  simp only [bisection, gt_iff_lt, not_lt.mpr hsign.le, if_false]
  exact bisectionLoop_near_root func tol htol _ a b hab.le hcont hsign hcap

/-- The instance of C3 from the spec: `x*x - 2` on `[0, 2]` with `tol = 1e-6`
and `max_iter = 100` gives a number within `1e-6` of `sqrt 2`. -/
theorem bisection_within_tol_of_root_witness :
    ∃ r, (bisection f (0 : ℝ) 2 (1 / 10 ^ 6) 100).outcome = Outcome.value r ∧
      |r - Real.sqrt 2| < 1 / 10 ^ 6 := by
  obtain ⟨r, hr, x, hx0, _, hfx, hd⟩ :=
    bisection_within_tol_of_root f 0 2 (1 / 10 ^ 6) 100 (by norm_num)
      (by unfold f; fun_prop) (by norm_num [f]) (by norm_num) (by norm_num)
      (by rw [show (100 : Int).toNat = 100 from rfl]; norm_num)
  have hx : x = Real.sqrt 2 := by
    have h2 : x ^ 2 = 2 := by simp only [f] at hfx; linarith [sq x]
    rw [← h2, Real.sqrt_sq hx0]
  exact ⟨r, hr, by rw [← hx]; exact hd⟩

/-- C4: for the target `x*x - 2` with derivative `2*x`, every `x0 > 0`, every
`tol > 0` and every `max_iter ≥ 1`: if `newton_raphson` stops because
`|dx| < tol`, its result `r` satisfies `sqrt 2 ≤ r < sqrt 2 + tol`. -/
theorem newton_sqrt_two (x0 tol : ℝ) (max_iter : Int) (hx0 : 0 < x0)
    (_htol : 0 < tol) (_hiter : 1 ≤ max_iter)
    (hstop : (newton_raphson f df x0 tol max_iter).early = true) :
    ∃ r, (newton_raphson f df x0 tol max_iter).outcome = Outcome.value r ∧
      Real.sqrt 2 ≤ r ∧ r < Real.sqrt 2 + tol :=
  newtonLoop_sqrt_two tol max_iter.toNat x0 hx0 hstop

/-- The instance of C4 from the spec: from `x0 = 1` with `tol = 1e-10` and
`max_iter = 50` the call stops by the test `|dx| < tol` at its fifth step, and
its result is within `1e-9` of `sqrt 2`. -/
theorem newton_sqrt_two_witness :
    (newton_raphson f df (1 : ℝ) (1 / 10 ^ 10) 50).early = true ∧
      (newton_raphson f df (1 : ℝ) (1 / 10 ^ 10) 50).steps = 5 ∧
      ∃ r, (newton_raphson f df (1 : ℝ) (1 / 10 ^ 10) 50).outcome = Outcome.value r ∧
        Real.sqrt 2 ≤ r ∧ r < Real.sqrt 2 + 1 / 10 ^ 10 ∧
        |r - Real.sqrt 2| < 1 / 10 ^ 9 := by
  have hearly : (newton_raphson f df (1 : ℝ) (1 / 10 ^ 10) 50).early = true := by
    rw [newton_spec_run]; rfl
  obtain ⟨r, hr, hlow, hup⟩ :=
    newton_sqrt_two 1 (1 / 10 ^ 10) 50 (by norm_num) (by norm_num) (by norm_num)
      hearly
  refine ⟨hearly, by rw [newton_spec_run]; rfl, r, hr, hlow, hup, ?_⟩
  rw [abs_lt]
  constructor <;> linarith [show (1 : ℝ) / 10 ^ 10 < 1 / 10 ^ 9 by norm_num]

/-- C5: for the target `x*x - 2`, `secant(f, 1, 2, 1e-10, 50)` in exact
rational arithmetic never divides by zero, stops by the test `|dx| < tol` at
its seventh step, before the cap of 50, and returns a number within `1e-9` of
`sqrt 2`. -/
theorem secant_instance :
    (secant f (1 : ℚ) 2 (1 / 10 ^ 10) 50).outcome =
        Outcome.value (7309005751876 / 5168247530883) ∧
      (secant f (1 : ℚ) 2 (1 / 10 ^ 10) 50).outcome ≠ Outcome.nonFinite ∧
      (secant f (1 : ℚ) 2 (1 / 10 ^ 10) 50).early = true ∧
      (secant f (1 : ℚ) 2 (1 / 10 ^ 10) 50).steps = 7 ∧
      |((7309005751876 / 5168247530883 : ℚ) : ℝ) - Real.sqrt 2| < 1 / 10 ^ 9 := by
  rw [secant_spec_run]
  refine ⟨rfl, by simp, rfl, rfl, ?_⟩
  apply near_sqrt_two <;> norm_num

/-- C6, the claim refuted: with the target `x*x - 2`, its derivative `2*x`
and `x0 = 0` the derivative vanishes at the first iterate, the division is
performed (`max_iter = 5`), and the call does not throw. -/
theorem newton_zero_derivative_counterexample :
    df (0 : ℚ) = 0 ∧ (0 : Int) < 5 ∧
      (newton_raphson f df (0 : ℚ) (1 / 10 ^ 6) 5).outcome ≠ Outcome.thrown := by
  refine ⟨by norm_num [df], by norm_num, ?_⟩
  simp [newton_raphson, newtonLoop, df]

/-- C6 as amended: on doubles with IEEE arithmetic, if the derivative is zero
at the iterate of a loop body that `newton_raphson` enters (body `k + 1`, within
the cap, the bodies before it not having returned), the division is not
guarded: no error is raised and the call returns a non-finite value. -/
theorem machine_newton_zero_derivative (A : Arith D) (nonFinite : D → Prop)
    (hA : A.IEEE nonFinite) (func derivative : D → D) (x0 tol : D)
    (max_iter : Int) (k : Nat) (hk : (k : Int) < max_iter)
    (hreach : ∀ j < k, A.lt (A.abs (Machine.newtonDx A func derivative
      (Machine.newtonIter A func derivative j x0))) tol = false)
    (hzero : A.eq (derivative (Machine.newtonIter A func derivative k x0)) A.zero
      = true) :
    (∃ r, (Machine.newton_raphson A func derivative x0 tol max_iter).outcome =
        Outcome.value r ∧ nonFinite r) ∧
      (Machine.newton_raphson A func derivative x0 tol max_iter).outcome ≠
        Outcome.thrown := by
  have h := machine_newtonLoop_reach_zero A nonFinite hA func derivative tol
    (max_iter.toNat - (k + 1)) k x0 hreach hzero
  rw [← toNat_split max_iter k hk] at h
  obtain ⟨r, hr, hnf⟩ := h
  refine ⟨⟨r, hr, hnf⟩, ?_⟩
  simp only [Machine.newton_raphson, hr]
  simp

set_option exponentiation.threshold 5000 in
/-- An instance of the amended C6 on binary64: for `x^3 - 3x + 3` with
derivative `3x^2 - 3`, from `x0 = 0` with `tol = 2^-20` the first body moves to
`1`, where the derivative is zero at the second body; the call enters all five
bodies and returns NaN. -/
theorem machine_newton_zero_derivative_witness :
    (Machine.newton_raphson B64.arith
        (fun x => B64.add (B64.sub (B64.mul (B64.mul x x) x) (B64.mul (B64.of 3 1074) x))
          (B64.of 3 1074))
        (fun x => B64.sub (B64.mul (B64.mul (B64.of 3 1074) x) x) (B64.of 3 1074))
        (B64.fin false 0) (B64.of 1 1054) 5).outcome = Outcome.value B64.nan ∧
      (Machine.newton_raphson B64.arith
        (fun x => B64.add (B64.sub (B64.mul (B64.mul x x) x) (B64.mul (B64.of 3 1074) x))
          (B64.of 3 1074))
        (fun x => B64.sub (B64.mul (B64.mul (B64.of 3 1074) x) x) (B64.of 3 1074))
        (B64.fin false 0) (B64.of 1 1054) 5).steps = 5 ∧
      ∃ r, (Machine.newton_raphson B64.arith
        (fun x => B64.add (B64.sub (B64.mul (B64.mul x x) x) (B64.mul (B64.of 3 1074) x))
          (B64.of 3 1074))
        (fun x => B64.sub (B64.mul (B64.mul (B64.of 3 1074) x) x) (B64.of 3 1074))
        (B64.fin false 0) (B64.of 1 1054) 5).outcome = Outcome.value r ∧
          B64.nonFinite r :=
  ⟨by decide, by decide,
    (machine_newton_zero_derivative B64.arith B64.nonFinite b64_arith_IEEE
      (fun x => B64.add (B64.sub (B64.mul (B64.mul x x) x) (B64.mul (B64.of 3 1074) x))
        (B64.of 3 1074))
      (fun x => B64.sub (B64.mul (B64.mul (B64.of 3 1074) x) x) (B64.of 3 1074))
      (B64.fin false 0) (B64.of 1 1054) 5 1 (by decide) (by decide) (by decide)).1⟩

/-- C7, the claim refuted: with the target `x*x - 2` and the guesses `-1` and
`1` the two function values are equal at the first step, the division is
performed (`max_iter = 50`), and the call does not throw. -/
theorem secant_equal_values_counterexample :
    f (1 : ℚ) = f (-1) ∧ (0 : Int) < 50 ∧
      (secant f (-1 : ℚ) 1 (1 / 10 ^ 10) 50).outcome ≠ Outcome.thrown := by
  refine ⟨by norm_num [f], by norm_num, ?_⟩
  simp [secant, secantLoop, f]

/-- C7 as amended: on doubles with IEEE arithmetic, if `func` takes equal
values at the pair of iterates of a loop body that `secant` enters (body
`k + 1`, within the cap, the bodies before it not having returned), the
division is not guarded: no error is raised and the call returns a non-finite
value. -/
theorem machine_secant_equal_values (A : Arith D) (nonFinite : D → Prop)
    (hA : A.IEEE nonFinite) (func : D → D) (x0 x1 tol : D)
    (max_iter : Int) (k : Nat) (hk : (k : Int) < max_iter)
    (hreach : ∀ j < k, A.lt (A.abs (Machine.secantDx A func
      (Machine.secantIter A func j x0 x1).1
      (Machine.secantIter A func j x0 x1).2)) tol = false)
    (hequal : A.eq (func (Machine.secantIter A func k x0 x1).2)
      (func (Machine.secantIter A func k x0 x1).1) = true) :
    (∃ r, (Machine.secant A func x0 x1 tol max_iter).outcome = Outcome.value r ∧
        nonFinite r) ∧
      (Machine.secant A func x0 x1 tol max_iter).outcome ≠ Outcome.thrown := by
  have h := machine_secantLoop_reach_tie A nonFinite hA func tol
    (max_iter.toNat - (k + 1)) k x0 x1 hreach hequal
  rw [← toNat_split max_iter k hk] at h
  obtain ⟨r, hr, hnf⟩ := h
  refine ⟨⟨r, hr, hnf⟩, ?_⟩
  simp only [Machine.secant, hr]
  simp

set_option exponentiation.threshold 5000 in
set_option maxRecDepth 100000 in
/-- An instance of the amended C7 on binary64, where rounding brings the two
iterates together: `x*x - 2` from the guesses `1` and `2` with `tol` the double
nearest `1e-17` and `max_iter = 12`.  After nine bodies the two iterates are the
same double, the tenth body divides zero by zero, and the call returns NaN after
all twelve bodies. -/
theorem machine_secant_equal_values_witness :
    (Machine.secantIter B64.arith (Machine.f B64.arith) 9 (B64.of 1 1074)
        (B64.of 2 1074)).1 =
      (Machine.secantIter B64.arith (Machine.f B64.arith) 9 (B64.of 1 1074)
        (B64.of 2 1074)).2 ∧
      (Machine.secant B64.arith (Machine.f B64.arith) (B64.of 1 1074) (B64.of 2 1074)
        (B64.of 6490371073168535 965) 12).outcome = Outcome.value B64.nan ∧
      (Machine.secant B64.arith (Machine.f B64.arith) (B64.of 1 1074) (B64.of 2 1074)
        (B64.of 6490371073168535 965) 12).steps = 12 ∧
      ∃ r, (Machine.secant B64.arith (Machine.f B64.arith) (B64.of 1 1074)
        (B64.of 2 1074) (B64.of 6490371073168535 965) 12).outcome = Outcome.value r ∧
          B64.nonFinite r :=
  ⟨by decide, by decide, by decide,
    (machine_secant_equal_values B64.arith B64.nonFinite b64_arith_IEEE
      (Machine.f B64.arith) (B64.of 1 1074) (B64.of 2 1074)
      (B64.of 6490371073168535 965) 12 9 (by decide) (by decide) (by decide)).1⟩

/-- C9: on doubles, whatever their arithmetic, for every `func`, `tol` and
integer `max_iter`, negative and zero included, each of the three methods
terminates: its `for` statement, run from the counter `0` with
`max max_iter 0 + 1` evaluations of the test `i < max_iter` as fuel, reaches a
`return` (`bisection` may throw before the loop), with the value and the number
of loop bodies of the run; and the run enters at most `max max_iter 0` loop
bodies.  The count covers every loop body, those after a division by zero
included. -/
theorem machine_steps_le_max_iter (A : Arith D) (func derivative : D → D)
    (a b x0 x1 tol : D) (max_iter : Int) :
    (((Machine.bisection A func a b tol max_iter).steps : Int) ≤ max max_iter 0 ∧
      ((Machine.newton_raphson A func derivative x0 tol max_iter).steps : Int)
        ≤ max max_iter 0 ∧
      ((Machine.secant A func x0 x1 tol max_iter).steps : Int) ≤ max max_iter 0) ∧
    (((Machine.bisection A func a b tol max_iter).outcome = Outcome.thrown ∧
        (Machine.bisection A func a b tol max_iter).steps = 0) ∨
      ∃ r, (Machine.bisection A func a b tol max_iter).outcome = Outcome.value r ∧
        Machine.forLoop max_iter (Machine.bisectionBody A func tol)
            (fun s => A.div (A.add s.left_limit s.right_limit) A.two)
            (max_iter.toNat + 1) 0 ⟨a, b, func a, func b⟩ =
          some (r, (Machine.bisection A func a b tol max_iter).steps)) ∧
    (∃ r, (Machine.newton_raphson A func derivative x0 tol max_iter).outcome =
        Outcome.value r ∧
      Machine.forLoop max_iter (Machine.newtonBody A func derivative tol) (fun x => x)
          (max_iter.toNat + 1) 0 x0 =
        some (r, (Machine.newton_raphson A func derivative x0 tol max_iter).steps)) ∧
    (∃ r, (Machine.secant A func x0 x1 tol max_iter).outcome = Outcome.value r ∧
      Machine.forLoop max_iter (Machine.secantBody A func tol) (fun p => p.2)
          (max_iter.toNat + 1) 0 (x0, x1) =
        some (r, (Machine.secant A func x0 x1 tol max_iter).steps)) := by
  have hb : (Machine.bisection A func a b tol max_iter).steps ≤ max_iter.toNat := by
    simp only [Machine.bisection]
    split_ifs
    · exact Nat.zero_le _
    · exact machine_bisectionLoop_steps A func tol _ _ _ _ _
  have hn := machine_newtonLoop_steps A func derivative tol max_iter.toNat x0
  have hs := machine_secantLoop_steps A func tol max_iter.toNat x0 x1
  have h0 : (max_iter - 0).toNat = max_iter.toNat := by rw [sub_zero]
  refine ⟨?_, ?_, machine_newton_forLoop A func derivative tol max_iter _ 0 x0 h0,
    machine_secant_forLoop A func tol max_iter _ 0 x0 x1 h0⟩
  · simp only [Machine.newton_raphson, Machine.secant]
    omega
  · by_cases h : A.lt A.zero (A.mul (func a) (func b)) = true
    · left
      simp [Machine.bisection, h]
    · right
      have hrun : Machine.bisection A func a b tol max_iter =
          Machine.bisectionLoop A func tol max_iter.toNat a b (func a) (func b) := by
        unfold Machine.bisection
        exact if_neg h
      rw [hrun]
      exact machine_bisection_forLoop A func tol max_iter _ 0 ⟨a, b, func a, func b⟩ h0

set_option exponentiation.threshold 5000 in
/-- An instance of C9 on binary64 with a division by zero: `newton_raphson` on
`x*x - 2` with derivative `2*x` from `x0 = 0`, with `tol` the double nearest
`1e-6` and `max_iter = 5`, divides by zero in its first loop body, enters all
five loop bodies and returns NaN; its `for` statement reaches the `return` at
the sixth evaluation of the test and not before. -/
theorem machine_steps_le_max_iter_witness :
    (Machine.newton_raphson B64.arith (Machine.f B64.arith) (Machine.df B64.arith)
        (B64.fin false 0) (B64.of 4722366482869645 1002) 5).steps = 5 ∧
      Machine.forLoop 5
          (Machine.newtonBody B64.arith (Machine.f B64.arith) (Machine.df B64.arith)
            (B64.of 4722366482869645 1002)) (fun x => x) 6 0 (B64.fin false 0) =
        some (B64.nan, 5) ∧
      Machine.forLoop 5
          (Machine.newtonBody B64.arith (Machine.f B64.arith) (Machine.df B64.arith)
            (B64.of 4722366482869645 1002)) (fun x => x) 5 0 (B64.fin false 0) =
        none ∧
      ((Machine.newton_raphson B64.arith (Machine.f B64.arith) (Machine.df B64.arith)
        (B64.fin false 0) (B64.of 4722366482869645 1002) 5).steps : Int) ≤ max 5 0 :=
  ⟨by decide, by decide, by decide,
    (machine_steps_le_max_iter B64.arith (Machine.f B64.arith) (Machine.df B64.arith)
      (B64.fin false 0) (B64.fin false 0) (B64.fin false 0) (B64.fin false 0)
      (B64.of 4722366482869645 1002) 5).1.2.1⟩

/-- C11, the code evaluated where it breaks the claim: for `func(x) = x` on the
bracket `[0, 2]` (valid: `func(0) * func(2) = 0`, the root is the left end) the
first step keeps the bracket `[1, 2]`, on which `func(1) * func(2) > 0`, and
with `tol = 1e-6` and `max_iter = 5` the call returns `63/32`. -/
theorem bisection_zero_at_left_end :
    (0 : ℚ) ≤ 2 ∧ (fun x : ℚ => x) 0 * (fun x : ℚ => x) 2 ≤ 0 ∧
      bisectionState (fun x : ℚ => x) (1 / 10 ^ 6) 1
          (bisectionInit (fun x : ℚ => x) 0 2) = some ⟨1, 2, 1, 2⟩ ∧
      ¬ (fun x : ℚ => x) 1 * (fun x : ℚ => x) 2 ≤ 0 ∧
      (bisection (fun x : ℚ => x) 0 2 (1 / 10 ^ 6) 5).outcome =
        Outcome.value (63 / 32) := by
  refine ⟨by norm_num, by norm_num, ?_, by norm_num, ?_⟩
  · norm_num [bisectionState, bisectionStep, bisectionInit]
  · rw [bisection]
    norm_num [bisectionLoop]

set_option exponentiation.threshold 5000 in
set_option maxRecDepth 100000 in
/-- C12, the claim refuted on doubles: for `x*x - 2` with derivative `2*x`,
from `x0 = 1` with `tol` the double nearest `2e-16` and `max_iter = 7`, the
derivative is nonzero at every term and no `k < 7` has `|x_{k+1} - x_k| < tol`,
so that the claim has the call return `x_7`; but the sixth step has
`|dx| < tol` while `|x_6 - x_5|` is one unit in the last place, and the call
returns `x_6`, which is not `x_7`. -/
theorem newton_rounded_step_counterexample :
    (∀ j ≤ 7, B64.eq (Machine.df B64.arith
        (Machine.newtonSeq B64.arith (Machine.f B64.arith) (Machine.df B64.arith)
          (B64.of 1 1074) j)) (B64.fin false 0) = false) ∧
      (∀ k < 7, B64.lt (B64.abs (B64.sub
        (Machine.newtonSeq B64.arith (Machine.f B64.arith) (Machine.df B64.arith)
          (B64.of 1 1074) (k + 1))
        (Machine.newtonSeq B64.arith (Machine.f B64.arith) (Machine.df B64.arith)
          (B64.of 1 1074) k))) (B64.of 2028240960365167 971) = false) ∧
      (Machine.newton_raphson B64.arith (Machine.f B64.arith) (Machine.df B64.arith)
        (B64.of 1 1074) (B64.of 2028240960365167 971) 7).outcome =
        Outcome.value (Machine.newtonSeq B64.arith (Machine.f B64.arith)
          (Machine.df B64.arith) (B64.of 1 1074) 6) ∧
      Machine.newtonSeq B64.arith (Machine.f B64.arith) (Machine.df B64.arith)
          (B64.of 1 1074) 6 ≠
        Machine.newtonSeq B64.arith (Machine.f B64.arith) (Machine.df B64.arith)
          (B64.of 1 1074) 7 := by
  refine ⟨by decide, by decide, by decide, by decide⟩

/-- C12 as amended: on doubles with IEEE arithmetic, when `derivative` is
nonzero at every visited iterate, `newton_raphson` follows the documented
recurrence `x_{n+1} = x_n - func(x_n) / derivative(x_n)` evaluated on doubles:
it returns `x_{k+1}` for the least `k < max_iter` with
`|func(x_k) / derivative(x_k)| < tol` (the size of the computed step, not the
difference of the rounded iterates), and `x_{max_iter}` when there is no such
`k`. -/
theorem machine_newton_matches_recurrence (A : Arith D) (nonFinite : D → Prop)
    (hA : A.IEEE nonFinite) (func derivative : D → D) (x0 tol : D)
    (max_iter : Int) :
    (∀ k : Nat, (k : Int) < max_iter →
      (∀ j ≤ k, A.eq (derivative (Machine.newtonSeq A func derivative x0 j)) A.zero
        = false) →
      (∀ j < k, A.lt (A.abs (A.div (func (Machine.newtonSeq A func derivative x0 j))
        (derivative (Machine.newtonSeq A func derivative x0 j)))) tol = false) →
      A.lt (A.abs (A.div (func (Machine.newtonSeq A func derivative x0 k))
        (derivative (Machine.newtonSeq A func derivative x0 k)))) tol = true →
      (Machine.newton_raphson A func derivative x0 tol max_iter).outcome =
        Outcome.value (Machine.newtonSeq A func derivative x0 (k + 1))) ∧
    ((∀ j : Nat, (j : Int) < max_iter →
        A.eq (derivative (Machine.newtonSeq A func derivative x0 j)) A.zero = false ∧
        A.lt (A.abs (A.div (func (Machine.newtonSeq A func derivative x0 j))
          (derivative (Machine.newtonSeq A func derivative x0 j)))) tol = false) →
      (Machine.newton_raphson A func derivative x0 tol max_iter).outcome =
        Outcome.value (Machine.newtonSeq A func derivative x0 max_iter.toNat)) := by
  have hdx : ∀ j : Nat,
      A.abs (Machine.newtonDx A func derivative (Machine.newtonIter A func derivative j x0)) =
        A.abs (A.div (func (Machine.newtonSeq A func derivative x0 j))
          (derivative (Machine.newtonSeq A func derivative x0 j))) := by
    intro j
    rw [machine_newton_abs_dx A nonFinite hA, machine_newtonIter_eq_seq A nonFinite hA]
  constructor
  · intro k hk _ hgo hs
    have h := (machine_newtonLoop_early A func derivative tol
      (max_iter.toNat - (k + 1)) k x0
      (fun j hj => by rw [hdx]; exact hgo j hj) (by rw [hdx]; exact hs)).1
    rw [← toNat_split max_iter k hk, machine_newtonIter_eq_seq A nonFinite hA] at h
    exact h
  · intro hall
    have h := machine_newtonLoop_exhaust A func derivative tol max_iter.toNat x0
      (fun j hj => by
        have hj2 : (j : Int) < max_iter := by omega
        rw [hdx]
        exact (hall j hj2).2)
    rw [machine_newtonIter_eq_seq A nonFinite hA] at h
    simp only [Machine.newton_raphson, h]

set_option exponentiation.threshold 5000 in
set_option maxRecDepth 100000 in
/-- Two instances of the amended C12 on binary64, for `x*x - 2` from `x0 = 1`
with `tol` the double nearest `2e-16`: with `max_iter = 7` the least `k` with
`|func(x_k) / derivative(x_k)| < tol` is `5` and the call returns `x_6`; with
`max_iter = 5` there is no such `k` and the call returns `x_5`. -/
theorem machine_newton_matches_recurrence_witness :
    (Machine.newton_raphson B64.arith (Machine.f B64.arith) (Machine.df B64.arith)
        (B64.of 1 1074) (B64.of 2028240960365167 971) 7).outcome =
        Outcome.value (B64.of 6369051672525772 1022) ∧
      (Machine.newton_raphson B64.arith (Machine.f B64.arith) (Machine.df B64.arith)
        (B64.of 1 1074) (B64.of 2028240960365167 971) 5).outcome =
        Outcome.value (B64.of 6369051672525773 1022) := by
  have h6 : Machine.newtonSeq B64.arith (Machine.f B64.arith) (Machine.df B64.arith)
      (B64.of 1 1074) 6 = B64.of 6369051672525772 1022 := by decide
  have h5 : Machine.newtonSeq B64.arith (Machine.f B64.arith) (Machine.df B64.arith)
      (B64.of 1 1074) 5 = B64.of 6369051672525773 1022 := by decide
  constructor
  · rw [← h6]
    exact (machine_newton_matches_recurrence B64.arith B64.nonFinite b64_arith_IEEE
      (Machine.f B64.arith) (Machine.df B64.arith) (B64.of 1 1074)
      (B64.of 2028240960365167 971) 7).1 5 (by decide) (by decide) (by decide)
      (by decide)
  · rw [← h5]
    refine (machine_newton_matches_recurrence B64.arith B64.nonFinite b64_arith_IEEE
      (Machine.f B64.arith) (Machine.df B64.arith) (B64.of 1 1074)
      (B64.of 2028240960365167 971) 5).2 ?_
    intro j hj
    have hj5 : j < 5 := by omega
    interval_cases j <;> decide

set_option exponentiation.threshold 5000 in
set_option maxRecDepth 100000 in
/-- C13, the claim refuted on doubles: for `func(x) = (x - 2^53) - 3` from the
guesses `2` and `2^53 + 4` with `tol = 1.5` and `max_iter = 2`, `func` takes
different values at every pair of terms and no `k` in `1..2` has
`|s_{k+1} - s_k| < tol` (both differences are `2`), so that the claim has the
call return `s_3`; but the first step has `|dx| < tol` (`dx` is just above `1`
and `s_1 - dx` rounds to `s_1 - 2`), and the call returns `s_2`, which is not
`s_3`. -/
theorem secant_rounded_step_counterexample :
    (∀ j < 2, B64.eq
        ((fun x => B64.sub (B64.sub x (B64.of 1 1127)) (B64.of 3 1074))
          (Machine.secantSeq B64.arith
            (fun x => B64.sub (B64.sub x (B64.of 1 1127)) (B64.of 3 1074))
            (B64.of 2 1074) (B64.of 2251799813685249 1076) (j + 1)))
        ((fun x => B64.sub (B64.sub x (B64.of 1 1127)) (B64.of 3 1074))
          (Machine.secantSeq B64.arith
            (fun x => B64.sub (B64.sub x (B64.of 1 1127)) (B64.of 3 1074))
            (B64.of 2 1074) (B64.of 2251799813685249 1076) j)) = false) ∧
      (∀ j < 2, B64.lt (B64.abs (B64.sub
        (Machine.secantSeq B64.arith
          (fun x => B64.sub (B64.sub x (B64.of 1 1127)) (B64.of 3 1074))
          (B64.of 2 1074) (B64.of 2251799813685249 1076) (j + 2))
        (Machine.secantSeq B64.arith
          (fun x => B64.sub (B64.sub x (B64.of 1 1127)) (B64.of 3 1074))
          (B64.of 2 1074) (B64.of 2251799813685249 1076) (j + 1))))
        (B64.of 3 1073) = false) ∧
      (Machine.secant B64.arith
        (fun x => B64.sub (B64.sub x (B64.of 1 1127)) (B64.of 3 1074))
        (B64.of 2 1074) (B64.of 2251799813685249 1076) (B64.of 3 1073) 2).outcome =
        Outcome.value (Machine.secantSeq B64.arith
          (fun x => B64.sub (B64.sub x (B64.of 1 1127)) (B64.of 3 1074))
          (B64.of 2 1074) (B64.of 2251799813685249 1076) 2) ∧
      Machine.secantSeq B64.arith
          (fun x => B64.sub (B64.sub x (B64.of 1 1127)) (B64.of 3 1074))
          (B64.of 2 1074) (B64.of 2251799813685249 1076) 2 ≠
        Machine.secantSeq B64.arith
          (fun x => B64.sub (B64.sub x (B64.of 1 1127)) (B64.of 3 1074))
          (B64.of 2 1074) (B64.of 2251799813685249 1076) 3 := by
  refine ⟨by decide, by decide, by decide, by decide⟩

/-- C13 as amended: on doubles with IEEE arithmetic, when `func` takes
different values at every pair of iterates in use, `secant` follows the
documented recurrence `s_0 = x0`, `s_1 = x1`,
`s_{n+1} = s_n - func(s_n) * (s_n - s_{n-1}) / (func(s_n) - func(s_{n-1}))`
evaluated on doubles: it returns `s_{k+1}` for the least `k` with
`1 ≤ k ≤ max_iter` and
`|func(s_k) * (s_k - s_{k-1}) / (func(s_k) - func(s_{k-1}))| < tol` (the size of
the computed step, not the difference of the rounded iterates), and
`s_{max_iter+1}` when there is no such `k`; the pair held after `k` steps is
`(s_k, s_{k+1})`, so that after each step the older iterate is the previous
newer iterate. -/
theorem machine_secant_matches_recurrence (A : Arith D) (nonFinite : D → Prop)
    (hA : A.IEEE nonFinite) (func : D → D) (x0 x1 tol : D) (max_iter : Int) :
    (∀ k : Nat, 1 ≤ k → (k : Int) ≤ max_iter →
      (∀ j, 1 ≤ j → j ≤ k →
        A.eq (func (Machine.secantSeq A func x0 x1 j))
          (func (Machine.secantSeq A func x0 x1 (j - 1))) = false) →
      (∀ j, 1 ≤ j → j < k →
        A.lt (A.abs (Machine.secantQuot A func (Machine.secantSeq A func x0 x1 (j - 1))
          (Machine.secantSeq A func x0 x1 j))) tol = false) →
      A.lt (A.abs (Machine.secantQuot A func (Machine.secantSeq A func x0 x1 (k - 1))
        (Machine.secantSeq A func x0 x1 k))) tol = true →
      (Machine.secant A func x0 x1 tol max_iter).outcome =
        Outcome.value (Machine.secantSeq A func x0 x1 (k + 1))) ∧
    ((∀ j : Nat, 1 ≤ j → (j : Int) ≤ max_iter →
        A.eq (func (Machine.secantSeq A func x0 x1 j))
          (func (Machine.secantSeq A func x0 x1 (j - 1))) = false ∧
        A.lt (A.abs (Machine.secantQuot A func (Machine.secantSeq A func x0 x1 (j - 1))
          (Machine.secantSeq A func x0 x1 j))) tol = false) →
      (Machine.secant A func x0 x1 tol max_iter).outcome =
        Outcome.value (Machine.secantSeq A func x0 x1 (max_iter.toNat + 1))) ∧
    (∀ k : Nat,
      Machine.secantIter A func k x0 x1 =
          (Machine.secantSeq A func x0 x1 k, Machine.secantSeq A func x0 x1 (k + 1)) ∧
        (Machine.secantIter A func (k + 1) x0 x1).1 =
          (Machine.secantIter A func k x0 x1).2) := by
  have hdx : ∀ j : Nat,
      A.abs (Machine.secantDx A func (Machine.secantIter A func j x0 x1).1
          (Machine.secantIter A func j x0 x1).2) =
        A.abs (Machine.secantQuot A func (Machine.secantSeq A func x0 x1 j)
          (Machine.secantSeq A func x0 x1 (j + 1))) := by
    intro j
    rw [machine_secant_dx A nonFinite hA, machine_secantIter_eq_seq A nonFinite hA]
  refine ⟨?_, ?_, ?_⟩
  · intro k hk1 hk _ hgo hs
    obtain ⟨i, rfl⟩ : ∃ i, k = i + 1 := ⟨k - 1, by omega⟩
    have hi : (i : Int) < max_iter := by omega
    have h := (machine_secantLoop_early A func tol (max_iter.toNat - (i + 1)) i x0 x1
      (fun j hj => by rw [hdx]; exact hgo (j + 1) (by omega) (by omega))
      (by rw [hdx]; exact hs)).1
    rw [← toNat_split max_iter i hi, machine_secantIter_eq_seq A nonFinite hA] at h
    exact h
  · intro hall
    have h := machine_secantLoop_exhaust A func tol max_iter.toNat x0 x1
      (fun j hj => by
        have hj2 : ((j + 1 : Nat) : Int) ≤ max_iter := by omega
        rw [hdx]
        exact (hall (j + 1) (by omega) hj2).2)
    rw [machine_secantIter_eq_seq A nonFinite hA] at h
    simp only [Machine.secant, h]
  · intro k
    refine ⟨machine_secantIter_eq_seq A nonFinite hA func k x0 x1, ?_⟩
    rw [machine_secantIter_eq_seq A nonFinite hA, machine_secantIter_eq_seq A nonFinite hA]

set_option exponentiation.threshold 5000 in
set_option maxRecDepth 100000 in
/-- Two instances of the amended C13 on binary64, for
`func(x) = (x - 2^53) - 3` from the guesses `2` and `2^53 + 4`: with
`tol = 1.5` and `max_iter = 2` the least `k` is `1` and the call returns
`s_2 = 2^53 + 2`; with `tol = 0.5` and `max_iter = 2` there is no such `k` and
the call returns `s_3 = 2^53 + 4`. -/
theorem machine_secant_matches_recurrence_witness :
    (Machine.secant B64.arith
        (fun x => B64.sub (B64.sub x (B64.of 1 1127)) (B64.of 3 1074))
        (B64.of 2 1074) (B64.of 2251799813685249 1076) (B64.of 3 1073) 2).outcome =
        Outcome.value (B64.of 4503599627370497 1075) ∧
      (Machine.secant B64.arith
        (fun x => B64.sub (B64.sub x (B64.of 1 1127)) (B64.of 3 1074))
        (B64.of 2 1074) (B64.of 2251799813685249 1076) (B64.of 1 1073) 2).outcome =
        Outcome.value (B64.of 2251799813685249 1076) := by
  have h2 : Machine.secantSeq B64.arith
      (fun x => B64.sub (B64.sub x (B64.of 1 1127)) (B64.of 3 1074))
      (B64.of 2 1074) (B64.of 2251799813685249 1076) 2 =
        B64.of 4503599627370497 1075 := by decide
  have h3 : Machine.secantSeq B64.arith
      (fun x => B64.sub (B64.sub x (B64.of 1 1127)) (B64.of 3 1074))
      (B64.of 2 1074) (B64.of 2251799813685249 1076) 3 =
        B64.of 2251799813685249 1076 := by decide
  constructor
  · rw [← h2]
    refine (machine_secant_matches_recurrence B64.arith B64.nonFinite b64_arith_IEEE
      (fun x => B64.sub (B64.sub x (B64.of 1 1127)) (B64.of 3 1074))
      (B64.of 2 1074) (B64.of 2251799813685249 1076) (B64.of 3 1073) 2).1 1
      (by decide) (by decide) ?_ ?_ (by decide)
    · intro j h1 hj
      obtain rfl : j = 1 := by omega
      decide
    · intro j h1 hj
      omega
  · rw [← h3]
    refine (machine_secant_matches_recurrence B64.arith B64.nonFinite b64_arith_IEEE
      (fun x => B64.sub (B64.sub x (B64.of 1 1127)) (B64.of 3 1074))
      (B64.of 2 1074) (B64.of 2251799813685249 1076) (B64.of 1 1073) 2).2.1 ?_
    intro j h1 hj
    have hj2 : j ≤ 2 := by omega
    interval_cases j <;> decide

/-- C14: in `bisection` on a valid bracket, let `s` be the bracket kept after
`k` steps that did not return, with step `k + 1` within the cap.  Its width is
exactly `(b - a) / 2 ^ k`; step `k + 1` returns from inside the loop if and only
if `func(mid) = 0` or the half-width `(right_limit - left_limit) / 2` is
strictly below `tol`, and the value then returned is the midpoint of `s`;
otherwise the step replaces exactly one endpoint by the midpoint and leaves the
other unchanged. -/
theorem bisection_halving (func : α → α) (a b tol : α) (max_iter : Int)
    (k : Nat) (s : Bracket α) (hsign : func a * func b ≤ 0)
    (hk : (k : Int) < max_iter)
    (hs : bisectionState func tol k (bisectionInit func a b) = some s) :
    s.right_limit - s.left_limit = (b - a) / 2 ^ k ∧
      (((bisection func a b tol max_iter).early = true ∧
          (bisection func a b tol max_iter).steps = k + 1) ↔
        (func s.mid = 0 ∨ (s.right_limit - s.left_limit) / 2 < tol)) ∧
      ((func s.mid = 0 ∨ (s.right_limit - s.left_limit) / 2 < tol) →
        (bisection func a b tol max_iter).outcome = Outcome.value s.mid) ∧
      (¬ (func s.mid = 0 ∨ (s.right_limit - s.left_limit) / 2 < tol) →
        ∃ t, bisectionState func tol (k + 1) (bisectionInit func a b) = some t ∧
          ((t.left_limit = s.left_limit ∧ t.right_limit = s.mid) ∨
            (t.left_limit = s.mid ∧ t.right_limit = s.right_limit))) := by
  have hb : bisection func a b tol max_iter =
      bisectionLoop func tol max_iter.toNat a b (func a) (func b) := by
    simp only [bisection, gt_iff_lt, not_lt.mpr hsign, if_false]
  have hN : max_iter.toNat = (max_iter.toNat - (k + 1) + 1) + k := by omega
  obtain ⟨ho, he, hc⟩ := bisectionLoop_state func tol (max_iter.toNat - (k + 1) + 1) k
    (bisectionInit func a b) s hs
  rw [← hN] at ho he hc
  simp only [bisectionInit] at ho he hc
  have hnone := bisectionStep_eq_none func tol s
  rw [hb]
  refine ⟨bisectionState_width func tol k _ s hs, ?_⟩
  cases hstp : bisectionStep func tol s with
  | none =>
      have hcond := hnone.mp hstp
      rw [bisectionLoop_step_none func tol _ s hstp] at ho he hc
      simp only [Run.stop_outcome, Run.stop_early, Run.stop_steps] at ho he hc
      exact ⟨⟨fun _ => hcond, fun _ => ⟨he, by omega⟩⟩, fun _ => ho,
        fun hn => absurd hcond hn⟩
  | some t =>
      have hcond : ¬ (func s.mid = 0 ∨ (s.right_limit - s.left_limit) / 2 < tol) := by
        intro h
        rw [hnone.mpr h] at hstp
        cases hstp
      rw [bisectionLoop_step_some func tol _ s t hstp] at ho he hc
      simp only [Run.tick_early, Run.tick_steps] at he hc
      have hnot : ¬ ((bisectionLoop func tol max_iter.toNat a b (func a) (func b)).early
            = true ∧
          (bisectionLoop func tol max_iter.toNat a b (func a) (func b)).steps
            = k + 1) := by
        rintro ⟨he2, hc2⟩
        have hpos := bisectionLoop_early_pos func tol _ _ _ _ _ (he.symm.trans he2)
        omega
      refine ⟨⟨fun h => absurd h hnot, fun h => absurd h hcond⟩,
        fun h => absurd h hcond, fun _ => ⟨t, ?_, bisectionStep_eq_some func tol s t hstp⟩⟩
      rw [bisectionState_succ, hs]
      exact hstp

/-- An instance of C14 on the target `x*x - 2`, bracket `[0, 2]`,
`tol = 1/10`, `max_iter = 50`: after two steps the bracket is `[1, 3/2]`, of
width `2 / 2 ^ 2`, and the third step does not return and moves the left end to
the midpoint `5/4`. -/
theorem bisection_halving_witness :
    bisectionState f (1 / 10 : ℚ) 2 (bisectionInit f 0 2) =
        some ⟨1, 3 / 2, -1, 1 / 4⟩ ∧
      (3 / 2 : ℚ) - 1 = (2 - 0) / 2 ^ 2 ∧
      ∃ t, bisectionState f (1 / 10 : ℚ) 3 (bisectionInit f 0 2) = some t ∧
        t.left_limit = 5 / 4 ∧ t.right_limit = 3 / 2 := by
  have hs : bisectionState f (1 / 10 : ℚ) 2 (bisectionInit f 0 2) =
      some ⟨1, 3 / 2, -1, 1 / 4⟩ := by
    norm_num [bisectionState, bisectionStep, bisectionInit, f]
  have h := bisection_halving f (0 : ℚ) 2 (1 / 10) 50 2 ⟨1, 3 / 2, -1, 1 / 4⟩
    (by norm_num [f]) (by norm_num) hs
  refine ⟨hs, h.1, ?_⟩
  obtain ⟨t, ht, hcase⟩ := h.2.2.2 (by norm_num [Bracket.mid, f])
  refine ⟨t, ht, ?_⟩
  rw [bisectionState_succ, hs] at ht
  have ht2 : t = ⟨5 / 4, 3 / 2, -7 / 16, 1 / 4⟩ := by
    have : bisectionStep f (1 / 10 : ℚ) ⟨1, 3 / 2, -1, 1 / 4⟩ =
        some ⟨5 / 4, 3 / 2, -7 / 16, 1 / 4⟩ := by
      norm_num [bisectionStep, f]
    simp only [Option.some_bind] at ht
    rw [this] at ht
    exact (Option.some.inj ht).symm
  rw [ht2]
  exact ⟨rfl, rfl⟩

set_option exponentiation.threshold 5000 in
set_option maxRecDepth 100000 in
/-- C15, the claim refuted on doubles: for `func(x) = (x - c) / x` with
`c = 1.25 * 2^1023` on the bracket `a = 2^1023`, `b = 1.5 * 2^1023` (`a ≤ b`,
valid: `func(a) * func(b) < 0`) with `tol = 0` and `max_iter = 5`, the sum
`left_limit + right_limit` overflows: the first midpoint is `+inf`, where `func`
is NaN, the left end moves to `+inf`, and at the second step the half-width
`(b - inf) / 2 = -inf` is below `tol`.  The call returns `+inf` from inside the
loop after two of the five steps, and `func` is zero at neither midpoint. -/
theorem bisection_overflow_counterexample :
    B64.le (B64.of 1 2097) (B64.of 3 2096) = true ∧
      B64.le (B64.fin false 0) (B64.fin false 0) = true ∧
      B64.lt (B64.fin false 0)
        (B64.mul ((fun x => B64.div (B64.sub x (B64.of 5 2095)) x) (B64.of 1 2097))
          ((fun x => B64.div (B64.sub x (B64.of 5 2095)) x) (B64.of 3 2096))) = false ∧
      Machine.bisection B64.arith (fun x => B64.div (B64.sub x (B64.of 5 2095)) x)
          (B64.of 1 2097) (B64.of 3 2096) (B64.fin false 0) 5 =
        ⟨Outcome.value (B64.inf false), 2, true, 2, 0⟩ ∧
      B64.div (B64.add (B64.of 1 2097) (B64.of 3 2096)) (B64.of 2 1074) =
        B64.inf false ∧
      Machine.bisectionState B64.arith (fun x => B64.div (B64.sub x (B64.of 5 2095)) x)
          (B64.fin false 0) 1
          ⟨B64.of 1 2097, B64.of 3 2096,
            (fun x => B64.div (B64.sub x (B64.of 5 2095)) x) (B64.of 1 2097),
            (fun x => B64.div (B64.sub x (B64.of 5 2095)) x) (B64.of 3 2096)⟩ =
        some ⟨B64.inf false, B64.of 3 2096, B64.nan,
          (fun x => B64.div (B64.sub x (B64.of 5 2095)) x) (B64.of 3 2096)⟩ ∧
      B64.div (B64.add (B64.inf false) (B64.of 3 2096)) (B64.of 2 1074) =
        B64.inf false ∧
      B64.eq ((fun x => B64.div (B64.sub x (B64.of 5 2095)) x) (B64.inf false))
        (B64.fin false 0) = false := by
  refine ⟨by decide, by decide, by decide, by decide, by decide, by decide, by decide,
    by decide⟩

/-- C15 as amended: on doubles with IEEE arithmetic and `tol ≤ 0`,
`newton_raphson` and `secant` never return from inside the loop: they enter all
`max_iter` loop bodies and return exactly the iterate reached after `max_iter`
steps; and `bisection` on a valid bracket either enters all `max_iter` loop
bodies, evaluating `func` in each, and returns the midpoint of the bracket kept
after them, or returns from inside the loop the midpoint `m` of a kept bracket
at which `func(m) == 0` or whose computed half-width
`(right_limit - left_limit) / 2` is negative. -/
theorem machine_nonpositive_tol (A : Arith D) (nonFinite : D → Prop)
    (hA : A.IEEE nonFinite) (func derivative : D → D) (a b x0 x1 tol : D)
    (max_iter : Int) (htol : A.le tol A.zero = true) :
    Machine.newton_raphson A func derivative x0 tol max_iter =
        ⟨Outcome.value (Machine.newtonIter A func derivative max_iter.toNat x0),
          max_iter.toNat, false, max_iter.toNat, max_iter.toNat⟩ ∧
      Machine.secant A func x0 x1 tol max_iter =
        ⟨Outcome.value (Machine.secantIter A func max_iter.toNat x0 x1).2,
          max_iter.toNat, false, 3 * max_iter.toNat, 0⟩ ∧
      (A.lt A.zero (A.mul (func a) (func b)) = false →
        (∃ t, Machine.bisectionState A func tol max_iter.toNat ⟨a, b, func a, func b⟩
              = some t ∧
            Machine.bisection A func a b tol max_iter =
              ⟨Outcome.value (A.div (A.add t.left_limit t.right_limit) A.two),
                max_iter.toNat, false, max_iter.toNat, 0⟩) ∨
          (∃ k < max_iter.toNat, ∃ t,
            Machine.bisectionState A func tol k ⟨a, b, func a, func b⟩ = some t ∧
            (A.eq (func (A.div (A.add t.left_limit t.right_limit) A.two)) A.zero = true ∨
              A.lt (A.div (A.sub t.right_limit t.left_limit) A.two) A.zero = true) ∧
            Machine.bisection A func a b tol max_iter =
              ⟨Outcome.value (A.div (A.add t.left_limit t.right_limit) A.two),
                k + 1, true, k + 1, 0⟩)) := by
  refine ⟨?_, ?_, ?_⟩
  · exact machine_newtonLoop_exhaust A func derivative tol max_iter.toNat x0
      (fun j _ => machine_abs_not_lt A nonFinite hA tol htol _)
  · exact machine_secantLoop_exhaust A func tol max_iter.toNat x0 x1
      (fun j _ => machine_abs_not_lt A nonFinite hA tol htol _)
  · intro hvalid
    have hrun : Machine.bisection A func a b tol max_iter =
        Machine.bisectionLoop A func tol max_iter.toNat a b (func a) (func b) := by
      unfold Machine.bisection
      exact if_neg (by rw [hvalid]; exact Bool.false_ne_true)
    rw [hrun]
    rcases machine_bisectionLoop_run A func tol max_iter.toNat ⟨a, b, func a, func b⟩
      with ⟨t, ht, hr⟩ | ⟨k, hk, t, ht, hnone, hr⟩
    · exact Or.inl ⟨t, ht, hr⟩
    · refine Or.inr ⟨k, hk, t, ht, ?_, hr⟩
      rcases (machine_bisectionStep_eq_none A func tol t).mp hnone with hz | hw
      · exact Or.inl hz
      · exact Or.inr (hA.neg_of_lt_of_le _ tol hw htol)

set_option exponentiation.threshold 5000 in
set_option maxRecDepth 100000 in
/-- An instance of the amended C15 on binary64, for `x*x - 2` with `tol = 0`
and `max_iter = 3`: `newton_raphson` from `1` returns `577/408` rounded,
`secant` from `1` and `2` returns `58/41` rounded, `bisection` on `[0, 2]`
keeps the bracket `[1.25, 1.5]` and returns `1.375`, each after three loop
bodies and not from inside the loop. -/
theorem machine_nonpositive_tol_witness :
    B64.le (B64.fin false 0) (B64.fin false 0) = true ∧
      Machine.newton_raphson B64.arith (Machine.f B64.arith) (Machine.df B64.arith)
          (B64.of 1 1074) (B64.fin false 0) 3 =
        ⟨Outcome.value (B64.of 6369061237727393 1022), 3, false, 3, 3⟩ ∧
      Machine.secant B64.arith (Machine.f B64.arith) (B64.of 1 1074) (B64.of 2 1074)
          (B64.fin false 0) 3 =
        ⟨Outcome.value (B64.of 3185472907164497 1023), 3, false, 9, 0⟩ ∧
      Machine.bisectionState B64.arith (Machine.f B64.arith) (B64.fin false 0) 3
          ⟨B64.fin false 0, B64.of 2 1074, Machine.f B64.arith (B64.fin false 0),
            Machine.f B64.arith (B64.of 2 1074)⟩ =
        some ⟨B64.of 5 1072, B64.of 3 1073, B64.fin true (7 * 2 ^ 1070),
          B64.of 1 1072⟩ ∧
      Machine.bisection B64.arith (Machine.f B64.arith) (B64.fin false 0)
          (B64.of 2 1074) (B64.fin false 0) 3 =
        ⟨Outcome.value (B64.of 11 1071), 3, false, 3, 0⟩ := by
  have h := machine_nonpositive_tol B64.arith B64.nonFinite b64_arith_IEEE
    (Machine.f B64.arith) (Machine.df B64.arith) (B64.fin false 0) (B64.of 2 1074)
    (B64.of 1 1074) (B64.of 2 1074) (B64.fin false 0) 3 (by decide)
  have hn : Machine.newtonIter B64.arith (Machine.f B64.arith) (Machine.df B64.arith)
      (3 : Int).toNat (B64.of 1 1074) = B64.of 6369061237727393 1022 := by decide
  have hs : (Machine.secantIter B64.arith (Machine.f B64.arith) (3 : Int).toNat
      (B64.of 1 1074) (B64.of 2 1074)).2 = B64.of 3185472907164497 1023 := by decide
  have hstate : Machine.bisectionState B64.arith (Machine.f B64.arith) (B64.fin false 0) 3
      ⟨B64.fin false 0, B64.of 2 1074, Machine.f B64.arith (B64.fin false 0),
        Machine.f B64.arith (B64.of 2 1074)⟩ =
      some ⟨B64.of 5 1072, B64.of 3 1073, B64.fin true (7 * 2 ^ 1070),
        B64.of 1 1072⟩ := by decide
  refine ⟨by decide, ?_, ?_, hstate, ?_⟩
  · rw [h.1, hn]; rfl
  · rw [h.2.1, hs]; rfl
  · rcases h.2.2 (by decide) with ⟨t, ht, hr⟩ | ⟨k, hk, t, ht, hcond, hr⟩
    · rw [show (3 : Int).toNat = 3 from rfl, hstate] at ht
      cases ht
      rw [hr]
      decide
    · exfalso
      have hk3 : k < 3 := hk
      interval_cases k
      · have h0 : t = ⟨B64.fin false 0, B64.of 2 1074,
            Machine.f B64.arith (B64.fin false 0), Machine.f B64.arith (B64.of 2 1074)⟩ :=
          (Option.some.inj ht).symm
        subst h0
        revert hcond
        decide
      · have h1 : Machine.bisectionState B64.arith (Machine.f B64.arith)
            (B64.fin false 0) 1
            ⟨B64.fin false 0, B64.of 2 1074, Machine.f B64.arith (B64.fin false 0),
              Machine.f B64.arith (B64.of 2 1074)⟩ =
            some ⟨B64.of 1 1074, B64.of 2 1074, B64.fin true (2 ^ 1074),
              B64.of 2 1074⟩ := by decide
        rw [h1] at ht
        cases ht
        revert hcond
        decide
      · have h2 : Machine.bisectionState B64.arith (Machine.f B64.arith)
            (B64.fin false 0) 2
            ⟨B64.fin false 0, B64.of 2 1074, Machine.f B64.arith (B64.fin false 0),
              Machine.f B64.arith (B64.of 2 1074)⟩ =
            some ⟨B64.of 1 1074, B64.of 3 1073, B64.fin true (2 ^ 1074),
              B64.of 1 1072⟩ := by decide
        rw [h2] at ht
        cases ht
        revert hcond
        decide

/-- C16, the claim refuted: one loop body of `secant` on the target `x*x - 2`
from the guesses `1` and `2` calls `func` three times, more than twice. -/
theorem secant_calls_counterexample :
    (secant f (1 : ℚ) 2 (1 / 10 ^ 10) 1).steps = 1 ∧
      (secant f (1 : ℚ) 2 (1 / 10 ^ 10) 1).funcCalls = 3 ∧
      ¬ (secant f (1 : ℚ) 2 (1 / 10 ^ 10) 1).funcCalls ≤
        2 * (secant f (1 : ℚ) 2 (1 / 10 ^ 10) 1).steps := by
  have hrun : secant f (1 : ℚ) 2 (1 / 10 ^ 10) 1 =
      (Run.exhausted (4 / 3 : ℚ)).tick 3 0 := by
    have e1 := secantLoop_continue f (1 / 10 ^ 10 : ℚ) 0 1 2 (4 / 3)
      (by norm_num [f]) (by norm_num [f]) (by norm_num [f, abs_lt])
    show secantLoop f (1 / 10 ^ 10 : ℚ) (0 + 1) 1 2 = _
    rw [e1]
    rfl
  rw [hrun]
  exact ⟨rfl, rfl, by decide⟩

/-- C16 as amended: inside the loop, for every input, `bisection` calls `func`
once per loop body (so at most twice), `secant` calls `func` three times per
loop body, and `newton_raphson` calls `func` once and `derivative` once per loop
body. -/
theorem calls_per_iteration (func derivative : α → α) (a b x0 x1 tol : α)
    (max_iter : Int) :
    ((bisection func a b tol max_iter).funcCalls =
        (bisection func a b tol max_iter).steps ∧
      (bisection func a b tol max_iter).funcCalls ≤
        2 * (bisection func a b tol max_iter).steps) ∧
    (secant func x0 x1 tol max_iter).funcCalls =
      3 * (secant func x0 x1 tol max_iter).steps ∧
    ((newton_raphson func derivative x0 tol max_iter).funcCalls =
        (newton_raphson func derivative x0 tol max_iter).steps ∧
      (newton_raphson func derivative x0 tol max_iter).derivCalls =
        (newton_raphson func derivative x0 tol max_iter).steps) := by
  have hb : (bisection func a b tol max_iter).funcCalls =
      (bisection func a b tol max_iter).steps := by
    simp only [bisection]
    split_ifs
    · rfl
    · exact (bisectionLoop_calls func tol _ _ _ _ _).1
  exact ⟨⟨hb, by omega⟩, (secantLoop_calls func tol _ x0 x1).1,
    newtonLoop_calls func derivative tol _ x0⟩

end Claims

end RootFinding
